import Mathlib

set_option linter.unusedVariables false

/-! Shallow embedding of the dependency-graph engine of the server-features
repository — the functions of packages/api-core/src/database-utils.ts,
packages/api-core/src/dependency_resolver-utils.ts and the store-mutating
tools of apps/feature-explorer/src/index.ts — together with proofs of the
specified properties.  TypeScript Map/Set values are embedded either as
update functions over Int keys (when only lookups matter) or as association
lists (when key/value enumeration matters); while-loops and unbounded
recursion carry explicit fuel, with lemmas showing the chosen fuel never
runs out where the source terminates. -/

/-- Constant MAX_DEPENDENCY_DEPTH from shared-types (value 50). -/
def MAX_DEPENDENCY_DEPTH : Nat := 50

/-- Constant MAX_DEPENDENCIES from shared-types (value 20). -/
def MAX_DEPENDENCIES : Nat := 20

/-- A feature record as consumed by the engine: id, priority, dependency-id
list (a TS null/absent list is embedded as the empty list, matching the
source idiom feature.dependencies or empty), passes and in_progress flags.
The fields name, category, description, steps carry no algorithmic content
and are omitted. -/
structure Feature where
  id : Int
  priority : Int
  dependencies : List Int
  passes : Bool
  in_progress : Bool
deriving DecidableEq, Repr

/-- feature_map.get(i): the (unique, under distinct ids) feature with the
given id; none models an absent key. -/
def findFeature (features : List Feature) (i : Int) : Option Feature :=
  features.find? (fun f => f.id == i)

/-- Map.set on a map embedded as a total function over Int keys. -/
def updF {α : Type} (m : Int → α) (k : Int) (v : α) : Int → α :=
  fun j => if j = k then v else m j

/-- State of the graph-building loop of resolve_dependencies: the in_degree,
adjacency, blocked and missing maps.  All four are keyed by feature id; the
function embedding returns the TS default (0 or empty list) off the key set,
which coincides with the source because in_degree and adjacency are
pre-seeded with every feature id and blocked/missing are only read back per
feature id. -/
structure BuildSt where
  in_degree : Int → Int
  adjacency : Int → List Int
  blocked : Int → List Int
  missing : Int → List Int

/-- Initial build state (all maps at their defaults). -/
def initBuild : BuildSt :=
  { in_degree := fun _ => 0, adjacency := fun _ => [],
    blocked := fun _ => [], missing := fun _ => [] }

/-- Body of the inner loop over one feature's dependencies in the
graph-building phase of resolve_dependencies: a dependency id absent from
the snapshot goes to missing; a present one adds an adjacency edge,
increments the dependent's in-degree, and, when the dependency is not
passing, records it in blocked. -/
def buildDep (features : List Feature) (f : Feature) (st : BuildSt) (dep_id : Int) : BuildSt :=
  match findFeature features dep_id with
  | none => { st with missing := updF st.missing f.id (st.missing f.id ++ [dep_id]) }
  | some dep =>
    let st1 : BuildSt :=
      { st with
        adjacency := updF st.adjacency dep_id (st.adjacency dep_id ++ [f.id]),
        in_degree := updF st.in_degree f.id (st.in_degree f.id + 1) }
    if dep.passes then st1
    else { st1 with blocked := updF st1.blocked f.id (st1.blocked f.id ++ [dep_id]) }

/-- The per-feature step of the graph-building loop. -/
def buildFeature (features : List Feature) (st : BuildSt) (f : Feature) : BuildSt :=
  f.dependencies.foldl (buildDep features f) st

/-- The whole graph-building loop of resolve_dependencies. -/
def buildGraph (features : List Feature) : BuildSt :=
  features.foldl (buildFeature features) initBuild

/-- The strict order implemented by the heap comparator of
resolve_dependencies: priority ascending, then id ascending. -/
def heapLt (a b : Feature) : Prop :=
  a.priority < b.priority ∨ (a.priority = b.priority ∧ a.id < b.id)

instance (a b : Feature) : Decidable (heapLt a b) := by
  unfold heapLt; infer_instance

/-- heap.push: the heap is embedded as a list kept sorted by the comparator
order, so that pop (taking the head) returns exactly the minimum a correct
binary min-heap returns; with distinct ids the comparator is a strict total
order, so the pop sequence of any correct heap is this one. -/
def heapPush (f : Feature) : List Feature → List Feature
  | [] => [f]
  | g :: gs => if heapLt f g then f :: g :: gs else g :: heapPush f gs

/-- Heap seeding loop of resolve_dependencies: push every feature whose
in-degree is 0. -/
def seedHeap (features : List Feature) (deg : Int → Int) : List Feature :=
  features.foldl (fun h f => if deg f.id = 0 then heapPush f h else h) []

/-- Body of the inner for-loop over the popped feature's dependents in
Kahn's algorithm: decrement the dependent's in-degree and, when it reaches
exactly 0, push the dependent.  In the source feature_map.get(dependent_id)
is always defined there because adjacency lists only hold feature ids; a
failed lookup leaves the heap unchanged in the embedding. -/
def relaxDependent (features : List Feature) (acc : List Feature × (Int → Int)) (dependent_id : Int) :
    List Feature × (Int → Int) :=
  let new_degree := acc.2 dependent_id - 1
  let deg' := updF acc.2 dependent_id new_degree
  if new_degree = 0 then
    match findFeature features dependent_id with
    | some g => (heapPush g acc.1, deg')
    | none => (acc.1, deg')
  else (acc.1, deg')

/-- The Kahn while-loop of resolve_dependencies, with explicit fuel standing
for the source's unbounded while (heap nonempty); kahn_fuel_sufficient below
shows that with fuel = number of features the 0-fuel branch is never taken
on snapshots with distinct ids.  Returns (ordered, final heap, final
in-degree). -/
def kahnLoop (features : List Feature) (adj : Int → List Int) :
    Nat → List Feature → (Int → Int) → List Feature → List Feature × List Feature × (Int → Int)
  | 0, heap, deg, ordered => (ordered, heap, deg)
  | _ + 1, [], deg, ordered => (ordered, [], deg)
  | fuel + 1, cur :: heap, deg, ordered =>
    let acc := (adj cur.id).foldl (relaxDependent features) (heap, deg)
    kahnLoop features adj fuel acc.1 acc.2 (ordered ++ [cur])

/-- State of the _detect_cycles DFS: visited and recursion-stack sets
(embedded as lists used for membership), the current path (pushed at the
end, as in the source array), and the accumulated cycles. -/
structure DfsSt where
  visited : List Int
  rec_stack : List Int
  path : List Int
  cycles : List (List Int)
deriving Repr

/-- Initial _detect_cycles state. -/
def initDfs : DfsSt := { visited := [], rec_stack := [], path := [], cycles := [] }

/-- One dfs(fid) call of _detect_cycles: mark fid visited/gray, push it on
the path, explore its dependencies in order, and on a false return pop the
path and remove fid from the recursion stack (on a true return the source
propagates immediately without popping).  The loop over the dependencies —
an unvisited one is explored recursively, a visited one on the recursion
stack records the path slice from its first occurrence as a cycle and
returns true, any other is skipped — is embedded as a fold whose
accumulator stops changing once the found flag is true, which is the same
early exit.  The source recursion is bounded by the visited set; the
embedding carries fuel (recursion depth budget), instantiated generously in
_detect_cycles. -/
def dfsCycles (feature_map : List Feature) : Nat → Int → DfsSt → Bool × DfsSt
  | 0, _, st => (false, st)
  | fuel + 1, fid, st =>
    let st0 : DfsSt :=
      { st with visited := fid :: st.visited, rec_stack := fid :: st.rec_stack,
                path := st.path ++ [fid] }
    let res :=
      match findFeature feature_map fid with
      | none => (false, st0)
      | some feature =>
        feature.dependencies.foldl
          (fun acc dep_id =>
            if acc.1 then acc
            else
              let st2 := acc.2
              if dep_id ∈ st2.visited then
                if dep_id ∈ st2.rec_stack then
                  (true, { st2 with
                            cycles := st2.cycles ++ [st2.path.drop (st2.path.indexOf dep_id)] })
                else (false, st2)
              else dfsCycles feature_map fuel dep_id st2)
          (false, st0)
    match res with
    | (true, st1) => (true, st1)
    | (false, st1) =>
      (false, { st1 with path := st1.path.dropLast, rec_stack := st1.rec_stack.erase fid })

/-- Fuel bound for _detect_cycles: the DFS recursion depth is at most the
number of distinct visitable ids plus one, which is at most the feature
count plus the total dependency count. -/
def detectCyclesFuel (features : List Feature) : Nat :=
  features.length + (features.map (fun f => f.dependencies.length)).sum + 1

/-- _detect_cycles (database-utils.ts): run dfs from every not-yet-visited
feature id, sharing visited/cycles state across roots, and return the list
of recorded cycles. -/
def _detect_cycles (features : List Feature) : List (List Int) :=
  let st := features.foldl
    (fun st f =>
      if f.id ∈ st.visited then st
      else (dfsCycles features (detectCyclesFuel features) f.id st).2)
    initDfs
  st.cycles

/-- Output value of resolve_dependencies.  blocked_features and
missing_dependencies keep the function embedding of the TS maps. -/
structure DependencyResult where
  ordered_features : List Feature
  circular_dependencies : List (List Int)
  blocked_features : Int → List Int
  missing_dependencies : Int → List Int

/-- resolve_dependencies (database-utils.ts): build the graph, run Kahn's
algorithm with the priority heap (fuel = feature count, see
kahn_fuel_sufficient), and when the sort is incomplete append the residual
(cyclic) features in input order and report cycles among exactly them. -/
def resolve_dependencies (features : List Feature) : DependencyResult :=
  let st := buildGraph features
  let res := kahnLoop features st.adjacency features.length
    (seedHeap features st.in_degree) st.in_degree []
  let ordered := res.1
  let remaining :=
    if ordered.length < features.length then
      features.filter (fun f => !(ordered.contains f))
    else []
  { ordered_features := ordered ++ remaining,
    circular_dependencies :=
      if ordered.length < features.length then _detect_cycles remaining else [],
    blocked_features := st.blocked,
    missing_dependencies := st.missing }

/-- The can_reach DFS closure inside would_create_circular_dependency.  The
source tracks depth upward and returns true (assume cycle, fail-safe) once
depth exceeds MAX_DEPENDENCY_DEPTH; the embedding counts the remaining
budget downward, so fuel = MAX_DEPENDENCY_DEPTH + 1 - depth and the
exhausted-budget case is the fail-safe true.  The shared mutable visited
set is threaded explicitly; the loop over the dependencies, whose true
result propagates immediately and whose false result threads the enlarged
visited set onward, is embedded as a fold whose accumulator stops changing
once the found flag is true — the same early exit. -/
def can_reach (feature_map : List Feature) (source_id : Int) :
    Nat → Int → List Int → Bool × List Int
  | 0, _, visited => (true, visited)
  | fuel + 1, current_id, visited =>
    if current_id = source_id then (true, visited)
    else if current_id ∈ visited then (false, visited)
    else
      let visited1 := current_id :: visited
      match findFeature feature_map current_id with
      | none => (false, visited1)
      | some current =>
        current.dependencies.foldl
          (fun acc dep_id =>
            if acc.1 then acc else can_reach feature_map source_id fuel dep_id acc.2)
          (false, visited1)

/-- would_create_circular_dependency (database-utils.ts): self-reference is
always a cycle; if either endpoint is absent the answer is false; otherwise
run the depth-bounded DFS from target_id looking for source_id. -/
def would_create_circular_dependency (features : List Feature) (source_id target_id : Int) : Bool :=
  if source_id = target_id then true
  else
    match findFeature features source_id, findFeature features target_id with
    | some _, some _ => (can_reach features source_id (MAX_DEPENDENCY_DEPTH + 1) target_id []).1
    | _, _ => false

/-- Spec-side definition (one step of the relation the spec words use): b is
a declared dependency of the feature with id a. -/
def DependsStep (features : List Feature) (a b : Int) : Prop :=
  ∃ f, findFeature features a = some f ∧ b ∈ f.dependencies

/-- Spec-side definition: a can reach b via existing dependency edges (the
wording of the would_create_cycle specification), as the reflexive
transitive closure of single dependency steps. -/
def specReaches (features : List Feature) (a b : Int) : Prop :=
  Relation.ReflTransGen (DependsStep features) a b

/-- build_adjacency_list (dependency_resolver-utils.ts): feature id to its
dependency list (absent ids map to the TS default, the empty list). -/
def build_adjacency_list (features : List Feature) : Int → List Int :=
  features.foldl (fun m f => updF m f.id f.dependencies) (fun _ => [])

/-- compute_depth (dependency_resolver-utils.ts), with fuel standing for
the source's unbounded recursion depth and the memo map threaded as an
association list.  The deps.map of the source evaluates left to right
threading the shared memo, embedded as a fold collecting the depth values;
a none result means the recursion did not finish within the given fuel —
compute_depth never memoizes before recursing, and the c2 theorem shows
that on a dependency cycle no fuel suffices. -/
def compute_depth_fuel (graph : Int → List Int) :
    Nat → Int → List (Int × Nat) → Option (Nat × List (Int × Nat))
  | 0, _, _ => none
  | fuel + 1, feature_id, memo =>
    match memo.lookup feature_id with
    | some d => some (d, memo)
    | none =>
      match graph feature_id with
      | [] => some (0, (feature_id, 0) :: memo)
      | d :: ds =>
        let folded : Option (List Nat × List (Int × Nat)) :=
          (d :: ds).foldl
            (fun acc dep_id =>
              match acc with
              | none => none
              | some (vals, m) =>
                match compute_depth_fuel graph fuel dep_id m with
                | none => none
                | some (v, m1) => some (vals ++ [v], m1))
            (some ([], memo))
        match folded with
        | none => none
        | some (vals, memo1) =>
          let depth := 1 + vals.foldl max 0
          some (depth, (feature_id, depth) :: memo1)

/-- Map.set on a map embedded as an association list: overwrite the first
binding of the key in place, or append a fresh binding at the end (JS Map
keeps the original insertion position on overwrite). -/
def setA {α : Type} : List (Int × α) → Int → α → List (Int × α)
  | [], k, v => [(k, v)]
  | (k0, v0) :: rest, k, v =>
    if k0 = k then (k0, v) :: rest else (k0, v0) :: setA rest k v

/-- The children (dependency to dependents) and parents (dependent to
dependencies) adjacency maps of compute_scheduling_scores; edges whose
dependency id is not a feature id are skipped (children.has check). -/
def buildCP (features : List Feature) : (Int → List Int) × (Int → List Int) :=
  features.foldl
    (fun cp f =>
      f.dependencies.foldl
        (fun cp dep_id =>
          if (features.map (fun g => g.id)).contains dep_id then
            (updF cp.1 dep_id (cp.1 dep_id ++ [f.id]),
             updF cp.2 f.id (cp.2 f.id ++ [dep_id]))
          else cp)
        cp)
    (fun _ => [], fun _ => [])

/-- The depth BFS loop of compute_scheduling_scores: pop the queue head,
keep the larger depth for the node, and enqueue every child with depth + 1
(unconditionally, as the source does).  Fuel stands for the source's
unbounded while loop; a none result means the loop has not finished within
the given fuel, and scores_bfs_diverges below exhibits a snapshot where no
fuel suffices. -/
def bfs_depths (children : Int → List Int) :
    Nat → List (Int × Nat) → List (Int × Nat) → Option (List (Int × Nat))
  | _, [], depths => some depths
  | 0, _ :: _, _ => none
  | fuel + 1, (node_id, depth) :: rest, depths =>
    let depths1 :=
      match depths.lookup node_id with
      | none => setA depths node_id depth
      | some d0 => if depth > d0 then setA depths node_id depth else depths
    bfs_depths children fuel (rest ++ (children node_id).map (fun c => (c, depth + 1))) depths1

/-- Stable insertion into a descending-by-key list: the new element goes
after every element whose key is at least its own, matching a stable sort
with comparator key(b) - key(a). -/
def insDescBy (key : Int → Nat) (x : Int) : List Int → List Int
  | [] => [x]
  | y :: ys => if key x ≤ key y then y :: insDescBy key x ys else x :: y :: ys

/-- The [...depths.keys()].sort((a, b) => depth(b) - depth(a)) of
compute_scheduling_scores as a stable descending sort. -/
def sortDescBy (key : Int → Nat) (l : List Int) : List Int :=
  l.foldl (fun acc x => insDescBy key x acc) []

/-- Math.max over the values of a map whose values are all nonnegative
(the depths and downstream maps), as the source's spread over
Map.values(). -/
def maxVals (l : List (Int × Nat)) : Nat :=
  (l.map (fun p => p.2)).foldl max 0

/-- The per-feature score formula of compute_scheduling_scores, over the
finished depths and downstream maps: score = 1000 times the normalized
downstream count plus 100 times the depth score plus 10 times the priority
factor, with the normalizing maxima taken over all map values (and the 0
and 1 fallbacks of the source when a maximum is 0). -/
def scoreOf (depths downstream : List (Int × Nat)) (f : Feature) : ℚ :=
  1000 * (if 0 < maxVals downstream then
            ((downstream.lookup f.id).getD 0 : ℚ) / (maxVals downstream : ℚ) else 0) +
  100 * (if 0 < maxVals depths then
           1 - ((depths.lookup f.id).getD 0 : ℚ) / (maxVals depths : ℚ) else 1) +
  10 * ((10 - min ((f.priority : ℚ)) 10) / 10)

/-- The final loop of compute_scheduling_scores, building the scores map. -/
def scoresFrom (features : List Feature) (depths downstream : List (Int × Nat)) :
    List (Int × ℚ) :=
  features.foldl (fun s f => setA s f.id (scoreOf depths downstream f)) []

/-- compute_scheduling_scores (database-utils.ts).  Scores are exact
rationals in the embedding; fuel feeds the depth BFS only.  Returns the
scores map as an association list in its Map insertion order. -/
def compute_scheduling_scores_fuel (fuel : Nat) (features : List Feature) :
    Option (List (Int × ℚ)) :=
  if features.isEmpty then some []
  else
    let cp := buildCP features
    let roots := (features.filter (fun f => (cp.2 f.id).isEmpty)).map (fun f => f.id)
    match bfs_depths cp.1 fuel (roots.map (fun r => (r, 0))) [] with
    | none => none
    | some depths0 =>
      let depths := features.foldl
        (fun ds f => if (ds.lookup f.id).isSome then ds else setA ds f.id 0) depths0
      let depthOf := fun i => (depths.lookup i).getD 0
      let sorted_ids := sortDescBy depthOf (depths.map (fun p => p.1))
      let downstream0 := features.foldl (fun m f => setA m f.id 0) ([] : List (Int × Nat))
      let downstream := sorted_ids.foldl
        (fun m fid => (cp.2 fid).foldl
          (fun m parent_id =>
            setA m parent_id ((m.lookup parent_id).getD 0 + 1 + (m.lookup fid).getD 0)) m)
        downstream0
      some (scoresFrom features depths downstream)

/-- The set of passing feature ids (as the list the source builds). -/
def passingIds (features : List Feature) : List Int :=
  (features.filter (fun f => f.passes)).map (fun f => f.id)

/-- The classification loop of get_ready_features: keep features that are
not passing, not in progress, and whose every dependency id is passing. -/
def ready_filter (features : List Feature) : List Feature :=
  features.filter (fun f =>
    !f.passes && !f.in_progress &&
      f.dependencies.all (fun d => (passingIds features).contains d))

/-- The strict comes-first order of the get_ready_features sort comparator:
scheduling score descending, then priority ascending, then id ascending
(score lookups default to 0 as in the source). -/
def readyBefore (scores : List (Int × ℚ)) (a b : Feature) : Prop :=
  (scores.lookup b.id).getD 0 < (scores.lookup a.id).getD 0 ∨
  ((scores.lookup a.id).getD 0 = (scores.lookup b.id).getD 0 ∧
    (a.priority < b.priority ∨ (a.priority = b.priority ∧ a.id < b.id)))

instance (scores : List (Int × ℚ)) (a b : Feature) : Decidable (readyBefore scores a b) := by
  unfold readyBefore; infer_instance

/-- Stable insertion for a JS stable sort with a strict comes-first
comparator: the new element is placed before the first element it strictly
precedes, hence after all earlier elements it ties with. -/
def insBefore (lt : Feature → Feature → Bool) (x : Feature) : List Feature → List Feature
  | [] => [x]
  | y :: ys => if lt x y then x :: y :: ys else y :: insBefore lt x ys

/-- Stable sort by a strict comes-first comparator (insertion formulation;
it agrees with any stable sort, and with any correct sort at all when the
comparator is total, as it is here for distinct ids). -/
def stableSortBy (lt : Feature → Feature → Bool) (l : List Feature) : List Feature :=
  l.foldl (fun acc x => insBefore lt x acc) []

/-- get_ready_features (database-utils.ts): classify, score, sort by the
comparator, and truncate to the limit.  Fuel feeds the scoring BFS. -/
def get_ready_features_fuel (fuel : Nat) (features : List Feature) (limit : Nat) :
    Option (List Feature) :=
  match compute_scheduling_scores_fuel fuel features with
  | none => none
  | some scores =>
    some ((stableSortBy (fun a b => decide (readyBefore scores a b)) (ready_filter features)).take limit)

/-- get_blocked_features (database-utils.ts): every not-passing feature
whose dependency list has at least one id outside the passing set, paired
with exactly those ids (its blocked_by field). -/
def get_blocked_features (features : List Feature) : List (Feature × List Int) :=
  features.filterMap (fun f =>
    if f.passes then none
    else
      let blocking := f.dependencies.filter (fun d => !(passingIds features).contains d)
      if blocking.isEmpty then none else some (f, blocking))

/-- Stable ascending insertion on Int, matching sort((a, b) => a - b). -/
def insAsc (x : Int) : List Int → List Int
  | [] => [x]
  | y :: ys => if y ≤ x then y :: insAsc x ys else x :: y :: ys

/-- Ascending numeric sort, as Array.prototype.sort((a, b) => a - b). -/
def sortAsc (l : List Int) : List Int :=
  l.foldl (fun acc x => insAsc x acc) []

/-- The dependency list feature_add_dependency writes (index.ts): push the
new id onto the current list, then sort ascending. -/
def deps_after_add (current_deps : List Int) (dependency_id : Int) : List Int :=
  sortAsc (current_deps ++ [dependency_id])

/-- The dependency list feature_set_dependencies writes (index.ts): a
sorted copy of the proposed ids (the empty list stays empty). -/
def deps_after_set (dependency_ids : List Int) : List Int :=
  sortAsc dependency_ids

/-- The dependency list one bulk feature ends up with (index.ts,
feature_create_bulk third pass): batch indices resolved to the created row
ids, sorted ascending. -/
def deps_after_bulk (created : List Int) (indices : List Nat) : List Int :=
  sortAsc (indices.map (fun idx => created.getD idx 0))

/-- The dependency list feature_remove_dependency writes (index.ts): the
current list with the removed id filtered out. -/
def deps_after_remove (current_deps : List Int) (dependency_id : Int) : List Int :=
  current_deps.filter (fun d => d != dependency_id)

/-- SELECT MAX(priority) over the store with the NULL-to-0 coalescing every
caller applies (maxRows[0]?.max_priority ?? 0): 0 on an empty store, the
true maximum otherwise. -/
def maxPriority : List Feature → Int
  | [] => 0
  | f :: rest => (rest.map (fun g => g.priority)).foldl max f.priority

/-- Model of SQLite rowid assignment for an insert; the concrete id value
plays no role in the priority-counter claims. -/
def nextId (store : List Feature) : Int :=
  (store.map (fun f => f.id)).foldl max 0 + 1

/-- feature_create (index.ts): under the priority lock, read MAX(priority),
assign next = max + 1 and insert the row (not passing, not in progress, no
dependencies).  Returns the new store and the assigned priority. -/
def feature_create (store : List Feature) : List Feature × Int :=
  let next_priority := maxPriority store + 1
  (store ++ [{ id := nextId store, priority := next_priority, dependencies := [],
               passes := false, in_progress := false }], next_priority)

/-- feature_skip (index.ts): if the feature exists and is not passing, set
its priority to MAX(priority) + 1 and clear in_progress; the error paths
leave the store unchanged.  Returns the new store and the list of assigned
priorities (empty on the error paths). -/
def feature_skip (store : List Feature) (feature_id : Int) : List Feature × List Int :=
  match findFeature store feature_id with
  | none => (store, [])
  | some f =>
    if f.passes then (store, [])
    else
      let new_priority := maxPriority store + 1
      (store.map (fun g =>
        if g.id = feature_id then { g with priority := new_priority, in_progress := false } else g),
       [new_priority])

/-- The dependency payload of one feature_create_bulk item; the text fields
(category, name, description, steps) are validated for presence in the
source but carry no algorithmic content and are assumed present here. -/
structure BulkItem where
  depends_on_indices : List Nat
deriving DecidableEq, Repr

/-- The first-pass validation of one bulk item at position i: when the
index list is nonempty it must respect the MAX_DEPENDENCIES limit, contain
no duplicates, and only reference strictly earlier positions. -/
def bulkItemValid (i : Nat) (it : BulkItem) : Bool :=
  it.depends_on_indices.isEmpty ||
    (decide (it.depends_on_indices.length ≤ MAX_DEPENDENCIES) &&
     decide it.depends_on_indices.Nodup &&
     it.depends_on_indices.all (fun idx => decide (idx < i)))

/-- The k rows the second pass of feature_create_bulk inserts: consecutive
row ids and consecutive priorities starting at MAX(priority) + 1, no
dependencies yet. -/
def bulkRows (store : List Feature) (k : Nat) : List Feature :=
  (List.range k).map (fun (i : Nat) =>
    { id := nextId store + (i : Int), priority := maxPriority store + 1 + (i : Int),
      dependencies := [], passes := false, in_progress := false })

/-- feature_create_bulk (index.ts): validate every item, then under the
priority lock read MAX(priority) once and insert the rows with consecutive
priorities start, start+1, ...; a third pass resolves index-based
dependencies to created row ids and writes them sorted ascending.  Returns
the new store and the list of assigned priorities in insertion order
(empty when validation fails). -/
def feature_create_bulk (store : List Feature) (items : List BulkItem) :
    List Feature × List Int :=
  if !(items.enum.all fun p => bulkItemValid p.1 p.2) then (store, [])
  else
    let start := maxPriority store + 1
    let base := nextId store
    let created := (List.range items.length).map (fun (i : Nat) => base + (i : Int))
    let store1 := store ++ bulkRows store items.length
    let store2 := items.enum.foldl
      (fun s p =>
        if p.2.depends_on_indices.isEmpty then s
        else
          let dep_ids := deps_after_bulk created p.2.depends_on_indices
          s.map (fun g =>
            if g.id = created.getD p.1 0 then { g with dependencies := dep_ids } else g))
      store1
    (store2, (List.range items.length).map (fun (i : Nat) => start + (i : Int)))

/-- A priority-assigning operation against the store, serialized through
the priority lock: single create, skip, or bulk create. -/
inductive StoreOp where
  | create : StoreOp
  | skip : Int → StoreOp
  | bulk : List BulkItem → StoreOp

/-- Run one operation, returning the new store and the priorities it
assigned, in assignment order. -/
def applyOp (store : List Feature) : StoreOp → List Feature × List Int
  | StoreOp.create => ((feature_create store).1, [(feature_create store).2])
  | StoreOp.skip i => feature_skip store i
  | StoreOp.bulk items => feature_create_bulk store items

/-- Run a sequence of lock-serialized operations, concatenating the
assigned priorities in assignment order. -/
def runOps (store : List Feature) : List StoreOp → List Feature × List Int
  | [] => (store, [])
  | op :: rest =>
    ((runOps (applyOp store op).1 rest).1,
     (applyOp store op).2 ++ (runOps (applyOp store op).1 rest).2)

/-- The predicate under which resolve_dependencies records a dependency id
as blocking: the id is present in the snapshot and its feature is not
passing. -/
def presentNotPassing (features : List Feature) (d : Int) : Bool :=
  match findFeature features d with
  | some g => !g.passes
  | none => false

/-- Two-node dependency cycle (1 depends on 2, 2 depends on 1). -/
def cycFeatures : List Feature :=
  [{ id := 1, priority := 1, dependencies := [2], passes := false, in_progress := false },
   { id := 2, priority := 1, dependencies := [1], passes := false, in_progress := false }]

/-- A root feeding a two-node cycle: 2 depends on 1 and 3, 3 depends on 2.
The scoring BFS enqueues the cycle forever from root 1. -/
def cyc3Features : List Feature :=
  [{ id := 1, priority := 1, dependencies := [], passes := false, in_progress := false },
   { id := 2, priority := 1, dependencies := [1, 3], passes := false, in_progress := false },
   { id := 3, priority := 1, dependencies := [2], passes := false, in_progress := false }]

/-- An acyclic dependency chain of 52 features: feature i depends on
feature i + 1, feature 52 has no dependencies; its depth (51) exceeds
MAX_DEPENDENCY_DEPTH. -/
def chainFeatures : List Feature :=
  (List.range 52).map (fun (i : Nat) =>
    { id := (i : Int) + 1, priority := 1,
      dependencies := if i + 1 = 52 then [] else [(i : Int) + 2],
      passes := false, in_progress := false })

/-- The 52-feature chain plus an isolated feature 100 that nothing can
reach. -/
def chainPlus : List Feature :=
  chainFeatures ++
    [{ id := 100, priority := 1, dependencies := [], passes := false, in_progress := false }]

/-- Snapshot for the readiness counterexample: feature 1 passes; feature 3
is not passing, not in progress, and its only dependency id 999 is absent
from the snapshot. -/
def exC7 : List Feature :=
  [{ id := 1, priority := 1, dependencies := [], passes := true, in_progress := false },
   { id := 3, priority := 2, dependencies := [999], passes := false, in_progress := false }]

/-- Snapshot for the blockers counterexample: a single not-passing feature
whose only dependency id 999 is absent from the snapshot. -/
def exC6 : List Feature :=
  [{ id := 1, priority := 1, dependencies := [999], passes := false, in_progress := false }]

/-- Snapshot for the score-range counterexample: a single feature with a
negative priority. -/
def exC8 : List Feature :=
  [{ id := 1, priority := -1001, dependencies := [], passes := false, in_progress := false }]

/-- The three edge-free distinct-priority features of the specification's
tie-break example. -/
def exC3 : List Feature :=
  [{ id := 1, priority := 10, dependencies := [], passes := false, in_progress := false },
   { id := 2, priority := 5, dependencies := [], passes := false, in_progress := false },
   { id := 3, priority := 1, dependencies := [], passes := false, in_progress := false }]

/-- The snapshot of the would-create-cycle examples: an existing edge 1
depends on 2, and an independent feature 2. -/
def exC4 : List Feature :=
  [{ id := 1, priority := 1, dependencies := [2], passes := false, in_progress := false },
   { id := 2, priority := 1, dependencies := [], passes := false, in_progress := false }]

/-! Helper lemmas. -/

theorem mem_insAsc {x y : Int} {l : List Int} : y ∈ insAsc x l ↔ y = x ∨ y ∈ l := by
  induction l with
  | nil => simp [insAsc]
  | cons z zs ih =>
    by_cases h : z ≤ x
    · simp only [insAsc, if_pos h, List.mem_cons, ih]
      tauto
    · simp only [insAsc, if_neg h, List.mem_cons]

theorem sorted_insAsc {x : Int} {l : List Int} (h : List.Sorted (· ≤ ·) l) :
    List.Sorted (· ≤ ·) (insAsc x l) := by
  induction l with
  | nil => simp [insAsc]
  | cons z zs ih =>
    rw [List.sorted_cons] at h
    by_cases hz : z ≤ x
    · simp only [insAsc, if_pos hz]
      rw [List.sorted_cons]
      refine ⟨?_, ih h.2⟩
      intro b hb
      rcases mem_insAsc.mp hb with rfl | hb
      · exact hz
      · exact h.1 b hb
    · simp only [insAsc, if_neg hz]
      rw [List.sorted_cons]
      refine ⟨?_, List.sorted_cons.mpr h⟩
      intro b hb
      rcases List.mem_cons.mp hb with rfl | hb
      · omega
      · have := h.1 b hb; omega

theorem sorted_sortAsc (l : List Int) : List.Sorted (· ≤ ·) (sortAsc l) := by
  have key : ∀ (l acc : List Int), List.Sorted (· ≤ ·) acc →
      List.Sorted (· ≤ ·) (l.foldl (fun acc x => insAsc x acc) acc) := by
    intro l
    induction l with
    | nil => intro acc h; exact h
    | cons x xs ih => intro acc h; exact ih _ (sorted_insAsc h)
  exact key l [] (by simp)

/-- C10: every dependency-mutating operation persists an ascending
dependency list: feature_add_dependency and feature_set_dependencies sort
before writing, feature_create_bulk writes index-resolved ids sorted
ascending, and feature_remove_dependency filters a sorted list, which stays
sorted. -/
theorem c10_dependency_lists_sorted :
    (∀ cur dep, List.Sorted (· ≤ ·) (deps_after_add cur dep)) ∧
    (∀ ids, List.Sorted (· ≤ ·) (deps_after_set ids)) ∧
    (∀ created indices, List.Sorted (· ≤ ·) (deps_after_bulk created indices)) ∧
    (∀ cur dep, List.Sorted (· ≤ ·) cur → List.Sorted (· ≤ ·) (deps_after_remove cur dep)) := by
  refine ⟨fun cur dep => sorted_sortAsc _, fun ids => sorted_sortAsc _,
    fun created indices => sorted_sortAsc _, fun cur dep h => ?_⟩
  exact List.Pairwise.filter _ h

/-- Witness for c10_dependency_lists_sorted at a concrete sorted list. -/
theorem c10_dependency_lists_sorted_witness :
    List.Sorted (· ≤ ·) (deps_after_remove [1, 2, 3] 2) :=
  c10_dependency_lists_sorted.2.2.2 [1, 2, 3] 2 (by decide)

/-- Membership characterization of the get_ready_features classification
loop. -/
theorem mem_ready_filter {features : List Feature} {f : Feature} :
    f ∈ ready_filter features ↔
      f ∈ features ∧ f.passes = false ∧ f.in_progress = false ∧
        ∀ d ∈ f.dependencies, d ∈ passingIds features := by
  unfold ready_filter
  rw [List.mem_filter]
  simp [List.all_eq_true, List.elem_iff, and_assoc]

/-- C7 (amended): a feature is classified ready by get_ready_features iff
it is in the snapshot, not passing, not in progress, and every one of its
dependency ids is in the passing set — a dependency id absent from the
snapshot is not treated permissively but blocks readiness; a
dependency-free, non-passing, non-in-progress feature is always ready. -/
theorem c7_ready_classification :
    ∀ features f,
      (f ∈ ready_filter features ↔
        f ∈ features ∧ f.passes = false ∧ f.in_progress = false ∧
          ∀ d ∈ f.dependencies, d ∈ passingIds features) ∧
      (f ∈ features → f.dependencies = [] → f.passes = false → f.in_progress = false →
        f ∈ ready_filter features) := by
  intro features f
  refine ⟨mem_ready_filter, fun hm hd hp hip => ?_⟩
  exact mem_ready_filter.mpr ⟨hm, hp, hip, by simp [hd]⟩

/-- Witness for c7_ready_classification: the dependency-free feature 2 is
classified ready in its singleton snapshot. -/
theorem c7_ready_classification_witness :
    (⟨2, 1, [], false, false⟩ : Feature) ∈ ready_filter [⟨2, 1, [], false, false⟩] :=
  (c7_ready_classification [⟨2, 1, [], false, false⟩] ⟨2, 1, [], false, false⟩).2
    (by decide) rfl rfl rfl

/-- C7 counterexample: in exC7, feature 3 is not passing, not in progress,
and its only dependency id 999 is absent from the snapshot, yet
get_ready_features classifies nothing as ready — a missing dependency id is
not treated permissively, contrary to the claim. -/
theorem c7_counterexample :
    get_ready_features_fuel 50 exC7 10 = some [] ∧
    (999 : Int) ∉ exC7.map (fun f => f.id) ∧
    (⟨3, 2, [999], false, false⟩ : Feature) ∈ exC7 ∧
    ready_filter exC7 = [] := by
  refine ⟨by decide, by decide, by decide, by decide⟩

/-- The blocked map after processing one dependency edge of one feature. -/
theorem buildDep_blocked (features : List Feature) (f : Feature) (st : BuildSt) (d k : Int) :
    (buildDep features f st d).blocked k =
      if k = f.id then st.blocked k ++ (if presentNotPassing features d then [d] else [])
      else st.blocked k := by
  unfold buildDep presentNotPassing
  cases hfd : findFeature features d with
  | none => by_cases h : k = f.id <;> simp [h]
  | some dep =>
    by_cases hp : dep.passes
    · by_cases h : k = f.id <;> simp [h, hp]
    · by_cases h : k = f.id <;> simp [h, hp, updF]

/-- The blocked map after processing all dependency edges of one feature:
the feature's own key gains exactly its present-and-not-passing dependency
ids, in order; other keys are untouched. -/
theorem buildFeature_blocked (features : List Feature) (f : Feature) :
    ∀ (deps : List Int) (st : BuildSt) (k : Int),
      (deps.foldl (buildDep features f) st).blocked k =
        if k = f.id then st.blocked k ++ deps.filter (presentNotPassing features)
        else st.blocked k := by
  intro deps
  induction deps with
  | nil => intro st k; by_cases h : k = f.id <;> simp [h]
  | cons d ds ih =>
    intro st k
    rw [List.foldl_cons, ih]
    by_cases h : k = f.id
    · simp only [h, if_pos rfl, buildDep_blocked, List.filter_cons]
      by_cases hd : presentNotPassing features d <;> simp [hd]
    · simp [h, buildDep_blocked]

/-- The blocked map after the whole graph-building loop, at any key. -/
theorem buildGraph_blocked_aux (features : List Feature) :
    ∀ (l : List Feature) (st : BuildSt) (k : Int),
      (l.foldl (buildFeature features) st).blocked k =
        st.blocked k ++ ((l.filter (fun g => g.id = k)).map
          (fun g => g.dependencies.filter (presentNotPassing features))).flatten := by
  intro l
  induction l with
  | nil => intro st k; simp
  | cons g gs ih =>
    intro st k
    rw [List.foldl_cons, ih]
    unfold buildFeature
    rw [buildFeature_blocked]
    by_cases h : g.id = k
    · rw [if_pos h.symm]
      simp [List.filter_cons, h]
    · rw [if_neg (fun hk => h hk.symm)]
      simp [List.filter_cons, h]

/-- Under distinct ids, filtering the snapshot by one member's id yields
exactly that member. -/
theorem filter_id_eq_of_nodup {features : List Feature} {f : Feature}
    (hnd : (features.map (fun g => g.id)).Nodup) (hf : f ∈ features) :
    features.filter (fun g => g.id = f.id) = [f] := by
  induction features with
  | nil => simp at hf
  | cons g gs ih =>
    rw [List.map_cons, List.nodup_cons] at hnd
    rcases List.mem_cons.mp hf with rfl | hf
    · rw [List.filter_cons]
      have hnil : gs.filter (fun x => decide (x.id = f.id)) = [] := by
        rw [List.filter_eq_nil_iff]
        intro a ha
        simp only [decide_eq_true_eq]
        intro hid
        exact hnd.1 (hid ▸ List.mem_map_of_mem (fun x => x.id) ha)
      simp [hnil]
    · have hne : g.id ≠ f.id := by
        intro hid
        exact hnd.1 (hid ▸ List.mem_map_of_mem (fun x => x.id) hf)
      rw [List.filter_cons]
      simp only [decide_eq_true_eq, if_neg hne]
      exact ih hnd.2 hf

/-- C6 (amended): the blocked_features map of resolve_dependencies lists,
for each feature, exactly its dependency ids that are present in the
snapshot and not passing (absent ids never appear there); the blocked_by
field of get_blocked_features instead lists exactly the dependency ids
outside the passing set, which includes ids absent from the snapshot. -/
theorem c6_blockers :
    (∀ features f, (features.map (fun g => g.id)).Nodup → f ∈ features →
      (resolve_dependencies features).blocked_features f.id =
        f.dependencies.filter (presentNotPassing features)) ∧
    (∀ features (p : Feature × List Int), p ∈ get_blocked_features features →
      p.2 = p.1.dependencies.filter (fun d => !(passingIds features).contains d) ∧
      p.1 ∈ features ∧ p.1.passes = false ∧ p.2 ≠ []) := by
  constructor
  · intro features f hnd hf
    show (buildGraph features).blocked f.id = _
    unfold buildGraph
    rw [buildGraph_blocked_aux, filter_id_eq_of_nodup hnd hf]
    simp [initBuild]
  · intro features p hp
    unfold get_blocked_features at hp
    rw [List.mem_filterMap] at hp
    obtain ⟨f, hf, he⟩ := hp
    cases hpa : f.passes with
    | true => rw [if_pos hpa] at he; exact absurd he (by simp)
    | false =>
      rw [if_neg (by rw [hpa]; exact Bool.false_ne_true)] at he
      simp only at he
      cases hbe : (f.dependencies.filter (fun d => !(passingIds features).contains d)).isEmpty with
      | true => rw [if_pos hbe] at he; exact absurd he (by simp)
      | false =>
        rw [if_neg (by rw [hbe]; exact Bool.false_ne_true)] at he
        rw [Option.some.injEq] at he
        subst he
        have hb : f.dependencies.filter (fun d => !(passingIds features).contains d) ≠ [] := by
          intro h0
          rw [h0] at hbe
          simp at hbe
        exact ⟨rfl, hf, hpa, hb⟩

/-- Witness for c6_blockers: in a two-feature snapshot where 2 depends on
the not-passing feature 1, the blocked entry of 2 is its filtered
dependency list. -/
theorem c6_blockers_witness :
    (resolve_dependencies [⟨1, 1, [], false, false⟩, ⟨2, 2, [1], false, false⟩]).blocked_features
        ((⟨2, 2, [1], false, false⟩ : Feature).id) =
      (⟨2, 2, [1], false, false⟩ : Feature).dependencies.filter
        (presentNotPassing [⟨1, 1, [], false, false⟩, ⟨2, 2, [1], false, false⟩]) :=
  c6_blockers.1 [⟨1, 1, [], false, false⟩, ⟨2, 2, [1], false, false⟩]
    ⟨2, 2, [1], false, false⟩ (by decide) (by decide)

/-- C6 counterexample: get_blocked_features reports the absent dependency
id 999 as a blocker, contradicting the claim that ids absent from the
snapshot never appear as blockers. -/
theorem c6_counterexample :
    (get_blocked_features exC6).map (fun p => (p.1.id, p.2)) = [(1, [999])] ∧
    (999 : Int) ∉ exC6.map (fun f => f.id) := ⟨by decide, by decide⟩

/-- On the two-feature cycle, compute_depth never finishes: every fuel
returns none (the memo is never extended before recursing). -/
theorem compute_depth_cyc_aux : ∀ fuel,
    compute_depth_fuel (build_adjacency_list cycFeatures) fuel 1 [] = none ∧
    compute_depth_fuel (build_adjacency_list cycFeatures) fuel 2 [] = none := by
  have hg1 : build_adjacency_list cycFeatures 1 = [2] := rfl
  have hg2 : build_adjacency_list cycFeatures 2 = [1] := rfl
  intro fuel
  induction fuel with
  | zero => constructor <;> rw [compute_depth_fuel]
  | succ n ih =>
    constructor
    · rw [compute_depth_fuel]
      simp only [List.lookup, hg1, List.foldl, ih.2]
    · rw [compute_depth_fuel]
      simp only [List.lookup, hg2, List.foldl, ih.1]

/-- On cyc3Features the BFS queue of compute_scheduling_scores never
empties: any queue of cycle nodes steps to another nonempty queue of
cycle nodes, so every fuel returns none. -/
theorem bfs_cyc_aux : ∀ (fuel : Nat) (q : List (Int × Nat)) (d : List (Int × Nat)), q ≠ [] →
    (∀ p ∈ q, p.1 = 2 ∨ p.1 = 3) →
    bfs_depths (buildCP cyc3Features).1 fuel q d = none := by
  have hc2 : (buildCP cyc3Features).1 2 = [3] := rfl
  have hc3 : (buildCP cyc3Features).1 3 = [2] := rfl
  intro fuel
  induction fuel with
  | zero =>
    intro q d hq hm
    cases q with
    | nil => exact absurd rfl hq
    | cons a as => rw [bfs_depths]
  | succ n ih =>
    intro q d hq hm
    cases q with
    | nil => exact absurd rfl hq
    | cons a as =>
      obtain ⟨node, dep⟩ := a
      rw [bfs_depths]
      rcases hm (node, dep) (List.mem_cons_self _ _) with h | h
      all_goals simp only at h
      all_goals subst h
      · apply ih
        · simp [hc2]
        · intro p hp
          rcases List.mem_append.mp hp with hp | hp
          · exact hm p (List.mem_cons_of_mem _ hp)
          · rw [hc2] at hp
            simp at hp
            rw [hp]
            exact Or.inr rfl
      · apply ih
        · simp [hc3]
        · intro p hp
          rcases List.mem_append.mp hp with hp | hp
          · exact hm p (List.mem_cons_of_mem _ hp)
          · rw [hc3] at hp
            simp at hp
            rw [hp]
            exact Or.inl rfl

/-- The scoring BFS on cyc3Features never finishes from its real initial
queue (the root 1): one step reaches the cycle queue. -/
theorem scores_bfs_diverges : ∀ fuel : Nat, bfs_depths (buildCP cyc3Features).1 fuel
    ((((cyc3Features.filter (fun f => ((buildCP cyc3Features).2 f.id).isEmpty)).map
      (fun f => f.id)).map (fun r => (r, 0)))) [] = none := by
  intro fuel
  have hq : (((cyc3Features.filter (fun f => ((buildCP cyc3Features).2 f.id).isEmpty)).map
      (fun f => f.id)).map (fun r => (r, (0 : Nat)))) = [(1, 0)] := rfl
  rw [hq]
  cases fuel with
  | zero => rw [bfs_depths]
  | succ n =>
    rw [bfs_depths]
    have hq2 : (([] : List (Int × Nat)) ++ ((buildCP cyc3Features).1 1).map (fun c => (c, 0 + 1)))
        = [(2, 1)] := rfl
    rw [hq2]
    exact bfs_cyc_aux n [(2, 1)] _ (by simp) (by intro p hp; simp at hp; rw [hp]; exact Or.inl rfl)

/-- C2: neither compute_depth nor compute_scheduling_scores terminates on
these cyclic snapshots — for every fuel the fueled embeddings report an
unfinished computation, i.e. the source recursion/loop runs forever (stack
overflow or hang) where the claim demands termination on every snapshot. -/
theorem c2_cyclic_divergence :
    (∀ fuel, compute_depth_fuel (build_adjacency_list cycFeatures) fuel 1 [] = none) ∧
    (∀ fuel, compute_scheduling_scores_fuel fuel cyc3Features = none) := by
  refine ⟨fun fuel => (compute_depth_cyc_aux fuel).1, fun fuel => ?_⟩
  simp only [compute_scheduling_scores_fuel]
  rw [if_neg (by decide)]
  rw [scores_bfs_diverges fuel]

set_option maxRecDepth 8000

/-- C5 counterexample: on the acyclic 52-feature chain, whose dependency
depth 51 exceeds MAX_DEPENDENCY_DEPTH = 50, _detect_cycles explores the
whole chain and reports no cycle at all — its DFS recursion is not
depth-capped and no fail-safe cycle is assumed. -/
theorem c5_counterexample :
    _detect_cycles chainFeatures = [] ∧
    (compute_depth_fuel (build_adjacency_list chainFeatures) 100 1 []).map (fun p => p.1)
      = some 51 ∧
    MAX_DEPENDENCY_DEPTH = 50 := by
  refine ⟨by decide, by decide, rfl⟩

/-- C5 (amended): the depth cap protects only the pre-validation DFS —
can_reach with its depth budget exhausted returns true (assume cycle,
fail-safe), and on the deep chain would_create_circular_dependency answers
true for an edge whose addition creates no cycle; the cycle-reporting
_detect_cycles has no depth cap (it terminates through its visited set) and
reports nothing on the same deep chain. -/
theorem c5_amended :
    (∀ (fm : List Feature) (sid cur : Int) (vis : List Int),
      can_reach fm sid 0 cur vis = (true, vis)) ∧
    would_create_circular_dependency chainPlus 100 1 = true ∧
    _detect_cycles chainFeatures = [] := by
  refine ⟨fun fm sid cur vis => ?_, by decide, by decide⟩
  rw [can_reach]


theorem init_le_foldl_max {α : Type} [LinearOrder α] (l : List α) :
    ∀ a : α, a ≤ l.foldl max a := by
  induction l with
  | nil => intro a; simp
  | cons y ys ih => intro a; exact le_trans (le_max_left a y) (ih _)

theorem foldl_max_le {α : Type} [LinearOrder α] (l : List α) :
    ∀ a c : α, a ≤ c → (∀ x ∈ l, x ≤ c) → l.foldl max a ≤ c := by
  induction l with
  | nil => intro a c ha _; simpa using ha
  | cons y ys ih =>
    intro a c ha hx
    exact ih _ _ (max_le ha (hx y (List.mem_cons_self _ _)))
      (fun x hm => hx x (List.mem_cons_of_mem _ hm))

theorem le_foldl_max {α : Type} [LinearOrder α] (l : List α) :
    ∀ (a x : α), x ∈ l → x ≤ l.foldl max a := by
  induction l with
  | nil => intro a x hx; simp at hx
  | cons y ys ih =>
    intro a x hx
    rcases List.mem_cons.mp hx with rfl | hx
    · exact le_trans (le_max_right a x) (init_le_foldl_max ys _)
    · exact ih _ _ hx

theorem lookup_mem_values {β : Type} {l : List (Int × β)} {k : Int} {v : β}
    (h : l.lookup k = some v) : v ∈ l.map (fun p => p.2) := by
  induction l with
  | nil => simp [List.lookup] at h
  | cons p ps ih =>
    obtain ⟨k0, v0⟩ := p
    rw [List.lookup] at h
    by_cases hk : k == k0
    · simp only [hk] at h
      simp at h
      simp [h]
    · simp only [hk] at h
      exact List.mem_cons_of_mem _ (ih h)

theorem getD_lookup_le_maxVals (l : List (Int × Nat)) (k : Int) :
    (l.lookup k).getD 0 ≤ maxVals l := by
  cases h : l.lookup k with
  | none => simp [maxVals]
  | some v =>
    simp only [Option.getD_some]
    exact le_foldl_max _ 0 v (lookup_mem_values h)

theorem scoreOf_range {depths downstream : List (Int × Nat)} {f : Feature}
    (hp : 0 ≤ f.priority) :
    0 ≤ scoreOf depths downstream f ∧ scoreOf depths downstream f ≤ 1110 := by
  unfold scoreOf
  have hu : 0 ≤ (if 0 < maxVals downstream then
      ((downstream.lookup f.id).getD 0 : ℚ) / (maxVals downstream : ℚ) else 0) ∧
      (if 0 < maxVals downstream then
      ((downstream.lookup f.id).getD 0 : ℚ) / (maxVals downstream : ℚ) else 0) ≤ 1 := by
    by_cases h : 0 < maxVals downstream
    · rw [if_pos h]
      constructor
      · positivity
      · rw [div_le_one (by exact_mod_cast h)]
        exact_mod_cast getD_lookup_le_maxVals downstream f.id
    · rw [if_neg h]; norm_num
  have hd : 0 ≤ (if 0 < maxVals depths then
      1 - ((depths.lookup f.id).getD 0 : ℚ) / (maxVals depths : ℚ) else 1) ∧
      (if 0 < maxVals depths then
      1 - ((depths.lookup f.id).getD 0 : ℚ) / (maxVals depths : ℚ) else 1) ≤ 1 := by
    by_cases h : 0 < maxVals depths
    · rw [if_pos h]
      have h1 : ((depths.lookup f.id).getD 0 : ℚ) / (maxVals depths : ℚ) ≤ 1 := by
        rw [div_le_one (by exact_mod_cast h)]
        exact_mod_cast getD_lookup_le_maxVals depths f.id
      have h0 : (0 : ℚ) ≤ ((depths.lookup f.id).getD 0 : ℚ) / (maxVals depths : ℚ) := by
        positivity
      constructor <;> linarith
    · rw [if_neg h]; norm_num
  have hpf : 0 ≤ (10 - min ((f.priority : ℚ)) 10) / 10 ∧
      (10 - min ((f.priority : ℚ)) 10) / 10 ≤ 1 := by
    have h1 : min ((f.priority : ℚ)) 10 ≤ 10 := min_le_right _ _
    have h2 : (0 : ℚ) ≤ min ((f.priority : ℚ)) 10 := by
      apply le_min
      · exact_mod_cast hp
      · norm_num
    constructor
    · apply div_nonneg (by linarith) (by norm_num)
    · rw [div_le_one (by norm_num)]
      linarith
  constructor <;> nlinarith [hu.1, hu.2, hd.1, hd.2, hpf.1, hpf.2]

/-- Values of setA are the new binding or old bindings. -/
theorem mem_setA {β : Type} {l : List (Int × β)} {k : Int} {v : β} {p : Int × β}
    (h : p ∈ setA l k v) : p = (k, v) ∨ p ∈ l := by
  induction l with
  | nil => simpa [setA] using h
  | cons q qs ih =>
    obtain ⟨k0, v0⟩ := q
    rw [setA] at h
    by_cases hq : k0 = k
    · rw [if_pos hq] at h
      rcases List.mem_cons.mp h with rfl | h
      · exact Or.inl (by rw [hq])
      · exact Or.inr (List.mem_cons_of_mem _ h)
    · rw [if_neg hq] at h
      rcases List.mem_cons.mp h with rfl | h
      · exact Or.inr (List.mem_cons_self _ _)
      · rcases ih h with h0 | h0
        · exact Or.inl h0
        · exact Or.inr (List.mem_cons_of_mem _ h0)

theorem mem_scoresFrom {features : List Feature} {depths downstream : List (Int × Nat)}
    {p : Int × ℚ} (h : p ∈ scoresFrom features depths downstream) :
    ∃ f ∈ features, p.2 = scoreOf depths downstream f := by
  unfold scoresFrom at h
  have key : ∀ (l : List Feature) (init : List (Int × ℚ)),
      p ∈ l.foldl (fun s f => setA s f.id (scoreOf depths downstream f)) init →
      p ∈ init ∨ ∃ f ∈ l, p.2 = scoreOf depths downstream f := by
    intro l
    induction l with
    | nil => intro init h0; exact Or.inl h0
    | cons f fs ih =>
      intro init h0
      rcases ih _ h0 with h1 | h1
      · rcases mem_setA h1 with rfl | h1
        · exact Or.inr ⟨f, List.mem_cons_self _ _, rfl⟩
        · exact Or.inl h1
      · obtain ⟨g, hg, he⟩ := h1
        exact Or.inr ⟨g, List.mem_cons_of_mem _ hg, he⟩
  rcases key features [] h with h0 | h0
  · simp at h0
  · exact h0

/-- C8 (amended): whenever compute_scheduling_scores finishes, every score
of a snapshot whose priorities are all nonnegative lies in the range 0 to
1110 (the formula of the embedding is scoreOf). -/
theorem c8_score_range :
    ∀ (fuel : Nat) (features : List Feature) (scores : List (Int × ℚ)),
      (∀ f ∈ features, 0 ≤ f.priority) →
      compute_scheduling_scores_fuel fuel features = some scores →
      ∀ p ∈ scores, 0 ≤ p.2 ∧ p.2 ≤ 1110 := by
  intro fuel features scores hp hs p hmem
  unfold compute_scheduling_scores_fuel at hs
  by_cases he : features.isEmpty
  · rw [if_pos he] at hs
    rw [Option.some.injEq] at hs
    subst hs
    simp at hmem
  · rw [if_neg he] at hs
    simp only at hs
    cases hb : bfs_depths (buildCP features).1 fuel
        (((features.filter (fun f => ((buildCP features).2 f.id).isEmpty)).map
          (fun f => f.id)).map (fun r => (r, 0))) [] with
    | none => rw [hb] at hs; exact absurd hs (by simp)
    | some depths0 =>
      rw [hb] at hs
      simp only [Option.some.injEq] at hs
      subst hs
      obtain ⟨f, hf, he2⟩ := mem_scoresFrom hmem
      rw [he2]
      exact scoreOf_range (hp f hf)

/-- Witness for c8_score_range at a singleton snapshot whose single score
is 109. -/
theorem c8_score_range_witness : 0 ≤ ((109 : ℚ)) ∧ ((109 : ℚ)) ≤ 1110 := by
  have h1 : compute_scheduling_scores_fuel 10
      [{ id := 1, priority := 1, dependencies := [], passes := false, in_progress := false }]
      = some (scoresFrom
          [{ id := 1, priority := 1, dependencies := [], passes := false, in_progress := false }]
          [((1 : Int), (0 : Nat))] [((1 : Int), (0 : Nat))]) := by rfl
  have h3 : scoreOf [((1 : Int), (0 : Nat))] [((1 : Int), (0 : Nat))]
      { id := 1, priority := 1, dependencies := [], passes := false, in_progress := false }
      = 109 := by
    unfold scoreOf maxVals
    norm_num
  have hs : compute_scheduling_scores_fuel 10
      [{ id := 1, priority := 1, dependencies := [], passes := false, in_progress := false }]
      = some [(1, (109 : ℚ))] := by
    rw [h1]
    have h2 : scoresFrom
        [{ id := 1, priority := 1, dependencies := [], passes := false, in_progress := false }]
        [((1 : Int), (0 : Nat))] [((1 : Int), (0 : Nat))]
        = [(1, scoreOf [((1 : Int), (0 : Nat))] [((1 : Int), (0 : Nat))]
            { id := 1, priority := 1, dependencies := [], passes := false, in_progress := false })] := by
      simp [scoresFrom, setA]
    rw [h2, h3]
  exact c8_score_range 10 _ _ (by norm_num) hs (1, 109) (by simp)

/-- C8 counterexample: a snapshot with the negative priority -1001 produces
the score 1111, outside the claimed range 0 to 1110. -/
theorem c8_counterexample :
    compute_scheduling_scores_fuel 10 exC8 = some [(1, (1111 : ℚ))] ∧
    ¬((1111 : ℚ) ≤ 1110) ∧ exC8 ≠ [] := by
  refine ⟨?_, by norm_num, by decide⟩
  have h1 : compute_scheduling_scores_fuel 10 exC8
      = some (scoresFrom exC8 [((1 : Int), (0 : Nat))] [((1 : Int), (0 : Nat))]) := by rfl
  have h2 : scoresFrom exC8 [((1 : Int), (0 : Nat))] [((1 : Int), (0 : Nat))]
      = [(1, scoreOf [((1 : Int), (0 : Nat))] [((1 : Int), (0 : Nat))]
          { id := 1, priority := -1001, dependencies := [], passes := false,
            in_progress := false })] := by
    simp [scoresFrom, exC8, setA]
  have h3 : scoreOf [((1 : Int), (0 : Nat))] [((1 : Int), (0 : Nat))]
      { id := 1, priority := -1001, dependencies := [], passes := false, in_progress := false }
      = 1111 := by
    unfold scoreOf maxVals
    norm_num
  rw [h1, h2, h3]

/-! Priority-counter lemmas. -/

theorem mem_le_maxPriority {s : List Feature} {f : Feature} (hf : f ∈ s) :
    f.priority ≤ maxPriority s := by
  cases s with
  | nil => simp at hf
  | cons g rest =>
    rw [maxPriority]
    rcases List.mem_cons.mp hf with rfl | hf
    · exact init_le_foldl_max _ _
    · exact le_foldl_max _ _ _ (List.mem_map_of_mem _ hf)

theorem maxPriority_le {s : List Feature} {c : Int} (hne : s ≠ [])
    (h : ∀ f ∈ s, f.priority ≤ c) : maxPriority s ≤ c := by
  cases s with
  | nil => exact absurd rfl hne
  | cons g rest =>
    rw [maxPriority]
    apply foldl_max_le
    · exact h g (List.mem_cons_self _ _)
    · intro x hx
      obtain ⟨f, hf, rfl⟩ := List.mem_map.mp hx
      exact h f (List.mem_cons_of_mem _ hf)

theorem maxPriority_append_one (s : List Feature) (r : Feature) :
    maxPriority (s ++ [r]) =
      if s.isEmpty then r.priority else max (maxPriority s) r.priority := by
  cases s with
  | nil => simp [maxPriority]
  | cons g rest =>
    simp [maxPriority, List.foldl_append]

theorem create_maxP (store : List Feature) :
    maxPriority (feature_create store).1 = maxPriority store + 1 := by
  show maxPriority (store ++ [_]) = _
  rw [maxPriority_append_one]
  by_cases h : store.isEmpty
  · rw [if_pos h]
  · rw [if_neg h]
    show max (maxPriority store) (maxPriority store + 1) = _
    exact max_eq_right (by omega)

theorem skip_assigned {store : List Feature} {fid : Int} {f : Feature}
    (hf : findFeature store fid = some f) (hp : f.passes = false) :
    (feature_skip store fid).2 = [maxPriority store + 1] := by
  unfold feature_skip
  rw [hf]
  simp [hp]

theorem skip_maxP {store : List Feature} {fid : Int} {f : Feature}
    (hf : findFeature store fid = some f) (hp : f.passes = false) :
    maxPriority (feature_skip store fid).1 = maxPriority store + 1 := by
  have hmem : f ∈ store := List.mem_of_find?_eq_some hf
  have hid : f.id = fid := by
    have := List.find?_some hf
    simpa using this
  unfold feature_skip
  rw [hf]
  simp only [hp, Bool.false_eq_true, if_false]
  apply le_antisymm
  · apply maxPriority_le
    · intro h0
      rw [List.map_eq_nil_iff] at h0
      rw [h0] at hmem
      simp at hmem
    · intro g hg
      obtain ⟨g0, hg0, rfl⟩ := List.mem_map.mp hg
      by_cases h : g0.id = fid
      · simp [h]
      · simp only [if_neg h]
        have := mem_le_maxPriority hg0
        omega
  · have hin : ({ f with priority := maxPriority store + 1, in_progress := false } : Feature)
        ∈ store.map (fun g =>
          if g.id = fid then { g with priority := maxPriority store + 1, in_progress := false }
          else g) := by
      have := List.mem_map_of_mem (fun g =>
        if g.id = fid then { g with priority := maxPriority store + 1, in_progress := false }
        else g) hmem
      simpa [hid] using this
    have := mem_le_maxPriority hin
    simpa using this

theorem maxPriority_map_preserve {s : List Feature} {g : Feature → Feature}
    (h : ∀ f, (g f).priority = f.priority) : maxPriority (s.map g) = maxPriority s := by
  cases s with
  | nil => rfl
  | cons a rest =>
    simp only [List.map_cons, maxPriority, List.map_map, Function.comp, h]
    congr 1
    apply List.map_congr_left
    intro f _
    exact h f


theorem bulkRows_succ (store : List Feature) (n : Nat) :
    bulkRows store (n + 1) = bulkRows store n ++
      [{ id := nextId store + (n : Int), priority := maxPriority store + 1 + (n : Int),
         dependencies := [], passes := false, in_progress := false }] := by
  simp [bulkRows, List.range_succ]

theorem maxP_bulkRows (store : List Feature) : ∀ k : Nat,
    maxPriority (store ++ bulkRows store k) =
      if k = 0 then maxPriority store else maxPriority store + k := by
  intro k
  induction k with
  | zero => simp [bulkRows]
  | succ n ih =>
    rw [bulkRows_succ, ← List.append_assoc, maxPriority_append_one]
    by_cases he : (store ++ bulkRows store n).isEmpty
    · have hs : store = [] := by
        rcases List.append_eq_nil.mp (List.isEmpty_iff.mp he) with ⟨h1, _⟩
        exact h1
      have hn : n = 0 := by
        by_contra hn0
        have : bulkRows store n ≠ [] := by
          intro hh
          have hlen : (bulkRows store n).length = n := by
            rw [bulkRows, List.length_map, List.length_range]
          rw [hh] at hlen
          exact hn0 hlen.symm
        exact this (List.append_eq_nil.mp (List.isEmpty_iff.mp he)).2
      rw [if_pos he]
      subst hs hn
      simp [maxPriority]
    · rw [if_neg he, ih]
      by_cases hn : n = 0
      · subst hn
        rw [if_pos rfl, if_neg (by omega)]
        show max (maxPriority store) (maxPriority store + 1 + ((0 : Nat) : Int)) = _
        push_cast
        rw [max_eq_right (by omega)]
        omega
      · rw [if_neg hn, if_neg (by omega)]
        show max (maxPriority store + (n : Int)) (maxPriority store + 1 + (n : Int)) = _
        rw [max_eq_right (by omega)]
        push_cast
        omega


theorem bulk_store2_maxP (created : List Int) (l : List (Nat × BulkItem)) :
    ∀ s : List Feature,
      maxPriority (l.foldl (fun s p =>
        if p.2.depends_on_indices.isEmpty then s
        else s.map (fun g =>
          if g.id = created.getD p.1 0 then
            { g with dependencies := deps_after_bulk created p.2.depends_on_indices }
          else g)) s) = maxPriority s := by
  induction l with
  | nil => intro s; rfl
  | cons p ps ih =>
    intro s
    rw [List.foldl_cons, ih]
    by_cases hc : p.2.depends_on_indices.isEmpty
    · rw [if_pos hc]
    · rw [if_neg hc]
      apply maxPriority_map_preserve
      intro f
      split <;> rfl

theorem bulk_assigned (store : List Feature) (items : List BulkItem)
    (hv : (items.enum.all fun p => bulkItemValid p.1 p.2) = true) :
    (feature_create_bulk store items).2 =
      (List.range items.length).map (fun (i : Nat) => maxPriority store + 1 + (i : Int)) := by
  unfold feature_create_bulk
  rw [if_neg (by simp [hv])]

theorem bulk_maxP (store : List Feature) (items : List BulkItem)
    (hv : (items.enum.all fun p => bulkItemValid p.1 p.2) = true) :
    maxPriority (feature_create_bulk store items).1 =
      if items.length = 0 then maxPriority store else maxPriority store + items.length := by
  unfold feature_create_bulk
  rw [if_neg (by simp [hv])]
  simp only
  rw [bulk_store2_maxP]
  exact maxP_bulkRows store items.length


theorem take_bulkRows (store : List Feature) (k i : Nat) (hi : i ≤ k) :
    (bulkRows store k).take i = bulkRows store i := by
  unfold bulkRows
  rw [← List.map_take, List.take_range, min_eq_left hi]

theorem bulk_assigned_at (store : List Feature) (items : List BulkItem) (i : Nat)
    (hv : (items.enum.all fun p => bulkItemValid p.1 p.2) = true)
    (hi : i < items.length) :
    (feature_create_bulk store items).2.getD i 0 =
      maxPriority (store ++ (bulkRows store items.length).take i) + 1 := by
  rw [bulk_assigned store items hv]
  rw [take_bulkRows store items.length i (le_of_lt hi)]
  rw [maxP_bulkRows]
  have hL : ((List.range items.length).map
      (fun (j : Nat) => maxPriority store + 1 + (j : Int))).getD i 0
      = maxPriority store + 1 + (i : Int) := by
    rw [List.getD_eq_getElem?_getD, List.getElem?_map, List.getElem?_range hi]
    rfl
  rw [hL]
  by_cases h0 : i = 0
  · subst h0
    simp
  · rw [if_neg h0]
    omega


theorem applyOp_facts (store : List Feature) (op : StoreOp) :
    List.Pairwise (· < ·) (applyOp store op).2 ∧
    (∀ p ∈ (applyOp store op).2, maxPriority store < p) ∧
    maxPriority store ≤ maxPriority (applyOp store op).1 ∧
    (∀ p ∈ (applyOp store op).2, p ≤ maxPriority (applyOp store op).1) := by
  cases op with
  | create =>
    have hm : maxPriority (applyOp store StoreOp.create).1 = maxPriority store + 1 :=
      create_maxP store
    refine ⟨by simp [applyOp], ?_, by rw [hm]; omega, ?_⟩
    · intro p hp
      simp only [applyOp, feature_create, List.mem_singleton] at hp
      omega
    · intro p hp
      simp only [applyOp, feature_create, List.mem_singleton] at hp
      rw [hm]
      omega
  | skip fid =>
    cases hf : findFeature store fid with
    | none =>
      have h1 : (applyOp store (StoreOp.skip fid)) = (store, []) := by
        simp [applyOp, feature_skip, hf]
      rw [h1]
      exact ⟨by simp, by simp, le_refl _, by simp⟩
    | some f =>
      cases hp : f.passes with
      | true =>
        have h1 : (applyOp store (StoreOp.skip fid)) = (store, []) := by
          simp [applyOp, feature_skip, hf, hp]
        rw [h1]
        exact ⟨by simp, by simp, le_refl _, by simp⟩
      | false =>
        have ha : (applyOp store (StoreOp.skip fid)).2 = [maxPriority store + 1] :=
          skip_assigned hf hp
        have hm : maxPriority (applyOp store (StoreOp.skip fid)).1 = maxPriority store + 1 :=
          skip_maxP hf hp
        rw [ha, hm]
        refine ⟨by simp, ?_, by omega, ?_⟩
        · intro p hp2
          simp at hp2
          omega
        · intro p hp2
          simp at hp2
          omega
  | bulk items =>
    by_cases hv : (items.enum.all fun p => bulkItemValid p.1 p.2) = true
    · have ha : (applyOp store (StoreOp.bulk items)).2 =
          (List.range items.length).map (fun (i : Nat) => maxPriority store + 1 + (i : Int)) :=
        bulk_assigned store items hv
      have hm : maxPriority (applyOp store (StoreOp.bulk items)).1 =
          if items.length = 0 then maxPriority store else maxPriority store + items.length :=
        bulk_maxP store items hv
      rw [ha, hm]
      refine ⟨?_, ?_, ?_, ?_⟩
      · rw [List.pairwise_map]
        apply List.Pairwise.imp ?_ (List.pairwise_lt_range items.length)
        intro a b hab
        omega
      · intro p hp2
        obtain ⟨j, hj, rfl⟩ := List.mem_map.mp hp2
        omega
      · by_cases h0 : items.length = 0
        · rw [if_pos h0]
        · rw [if_neg h0]; omega
      · intro p hp2
        obtain ⟨j, hj, rfl⟩ := List.mem_map.mp hp2
        rw [List.mem_range] at hj
        have h0 : items.length ≠ 0 := by omega
        rw [if_neg h0]
        omega
    · have h1 : (applyOp store (StoreOp.bulk items)) = (store, []) := by
        simp [applyOp, feature_create_bulk, hv]
      rw [h1]
      exact ⟨by simp, by simp, le_refl _, by simp⟩

theorem runOps_facts : ∀ (ops : List StoreOp) (store : List Feature),
    List.Pairwise (· < ·) (runOps store ops).2 ∧
    (∀ p ∈ (runOps store ops).2, maxPriority store < p) ∧
    maxPriority store ≤ maxPriority (runOps store ops).1 := by
  intro ops
  induction ops with
  | nil => intro store; exact ⟨by simp [runOps], by simp [runOps], by simp [runOps]⟩
  | cons op rest ih =>
    intro store
    obtain ⟨h1, h2, h3, h4⟩ := applyOp_facts store op
    obtain ⟨i1, i2, i3⟩ := ih (applyOp store op).1
    have hrw : runOps store (op :: rest) =
        ((runOps (applyOp store op).1 rest).1,
         (applyOp store op).2 ++ (runOps (applyOp store op).1 rest).2) := rfl
    refine ⟨?_, ?_, ?_⟩
    · rw [hrw]
      rw [List.pairwise_append]
      exact ⟨h1, i1, fun x hx y hy => lt_of_le_of_lt (h4 x hx) (i2 y hy)⟩
    · rw [hrw]
      intro p hp
      rcases List.mem_append.mp hp with hp | hp
      · exact h2 p hp
      · exact lt_of_le_of_lt h3 (i2 p hp)
    · rw [hrw]
      exact le_trans h3 i3


/-- C9: every priority-assigning operation assigns 1 + the current maximum
priority at the moment of assignment — feature_create always, feature_skip
on its success path, and each insertion of feature_create_bulk against the
store as already extended by its earlier insertions (1 on an empty store,
since MAX coalesces to 0); consequently any lock-serialized sequence of
such operations yields strictly increasing, pairwise distinct assigned
priorities. -/
theorem c9_priority_counter :
    (∀ store, (feature_create store).2 = maxPriority store + 1) ∧
    (∀ store fid f, findFeature store fid = some f → f.passes = false →
      (feature_skip store fid).2 = [maxPriority store + 1]) ∧
    (∀ store items i, (items.enum.all fun p => bulkItemValid p.1 p.2) = true →
      i < items.length →
      (feature_create_bulk store items).2.getD i 0 =
        maxPriority (store ++ (bulkRows store items.length).take i) + 1) ∧
    (∀ store ops, List.Pairwise (· < ·) (runOps store ops).2) ∧
    maxPriority [] = 0 := by
  refine ⟨fun store => rfl, fun store fid f hf hp => skip_assigned hf hp,
    fun store items i hv hi => bulk_assigned_at store items i hv hi,
    fun store ops => (runOps_facts ops store).1, rfl⟩

/-- Witness for c9_priority_counter: skipping the only feature of a store
with maximum priority 5 assigns 6, and the sample operation sequence
assigns strictly increasing priorities. -/
theorem c9_priority_counter_witness :
    (feature_skip [{ id := 1, priority := 5, dependencies := [], passes := false, in_progress := false }] 1).2 = [6] ∧
    List.Pairwise (· < ·)
      (runOps [] [StoreOp.create, StoreOp.create, StoreOp.bulk [⟨[]⟩, ⟨[0]⟩],
        StoreOp.skip 1]).2 := by
  constructor
  · have h := c9_priority_counter.2.1
      [{ id := 1, priority := 5, dependencies := [], passes := false, in_progress := false }] 1
      { id := 1, priority := 5, dependencies := [], passes := false, in_progress := false }
      rfl rfl
    rw [h]
    rfl
  · exact c9_priority_counter.2.2.2.1 []
      [StoreOp.create, StoreOp.create, StoreOp.bulk [⟨[]⟩, ⟨[0]⟩], StoreOp.skip 1]


theorem heapPush_perm (f : Feature) (h : List Feature) : (heapPush f h).Perm (f :: h) := by
  induction h with
  | nil => simp [heapPush]
  | cons g gs ih =>
    rw [heapPush]
    by_cases hlt : heapLt f g
    · rw [if_pos hlt]
    · rw [if_neg hlt]
      exact (ih.cons g).trans (List.Perm.swap f g gs)

theorem mem_heapPush {f x : Feature} {h : List Feature} :
    x ∈ heapPush f h ↔ x = f ∨ x ∈ h := by
  rw [(heapPush_perm f h).mem_iff]
  simp

theorem seedHeap_perm (features : List Feature) (deg : Int → Int) :
    (seedHeap features deg).Perm (features.filter (fun f => decide (deg f.id = 0))) := by
  unfold seedHeap
  have key : ∀ (l : List Feature) (acc : List Feature),
      (l.foldl (fun h f => if deg f.id = 0 then heapPush f h else h) acc).Perm
        (acc ++ l.filter (fun f => decide (deg f.id = 0))) := by
    intro l
    induction l with
    | nil => intro acc; simp
    | cons f fs ih =>
      intro acc
      rw [List.foldl_cons, List.filter_cons]
      by_cases hz : deg f.id = 0
      · rw [if_pos hz, if_pos (by simp [hz])]
        refine (ih (heapPush f acc)).trans ?_
        refine (List.Perm.append_right _ (heapPush_perm f acc)).trans ?_
        exact List.perm_middle.symm
      · rw [if_neg hz, if_neg (by simp [hz])]
        exact ih acc
  simpa using key features []

theorem findFeature_mem {features : List Feature} {d : Int} {g : Feature}
    (h : findFeature features d = some g) : g ∈ features :=
  List.mem_of_find?_eq_some h

theorem findFeature_id {features : List Feature} {d : Int} {g : Feature}
    (h : findFeature features d = some g) : g.id = d := by
  have := List.find?_some h
  simpa using this

theorem length_le_of_nodup_ids {l features : List Feature}
    (hnd : (l.map (fun f => f.id)).Nodup) (hsub : ∀ f, f ∈ l → f ∈ features) :
    l.length ≤ features.length := by
  have h1 : (l.map (fun f => f.id)) ⊆ (features.map (fun f => f.id)) := by
    intro i hi
    obtain ⟨f, hf, rfl⟩ := List.mem_map.mp hi
    exact List.mem_map_of_mem _ (hsub f hf)
  have h2 := (List.subperm_of_subset hnd h1).length_le
  simpa using h2

theorem perm_append_filter_not_mem {l features : List Feature}
    (hndf : features.Nodup) (hndl : l.Nodup) (hsub : ∀ f, f ∈ l → f ∈ features) :
    (l ++ features.filter (fun f => !(l.contains f))).Perm features := by
  rw [List.perm_iff_count]
  intro f
  rw [List.count_append]
  by_cases hf : f ∈ l
  · have h1 : l.count f = 1 := List.count_eq_one_of_mem hndl hf
    have h0 : List.count f (features.filter (fun g => !(l.contains g))) = 0 := by
      rw [List.count_eq_zero]
      intro hmem
      rw [List.mem_filter] at hmem
      simp [hf] at hmem
    have h2 : features.count f = 1 := List.count_eq_one_of_mem hndf (hsub f hf)
    rw [h1, h0, h2]
  · have h1 : l.count f = 0 := List.count_eq_zero_of_not_mem hf
    have h0 : List.count f (features.filter (fun g => !(l.contains g))) = features.count f :=
      List.count_filter (by simp [hf])
    rw [h1, h0]
    omega


theorem relaxDependent_eq (features : List Feature) (heap : List Feature) (deg : Int → Int)
    (d : Int) :
    relaxDependent features (heap, deg) d =
      if deg d - 1 = 0 then
        match findFeature features d with
        | some g => (heapPush g heap, updF deg d (deg d - 1))
        | none => (heap, updF deg d (deg d - 1))
      else (heap, updF deg d (deg d - 1)) := rfl

theorem relaxFold_inv (features : List Feature) (deps : List Int) :
    ∀ (tracked heap : List Feature) (deg : Int → Int),
      ((tracked ++ heap).map (fun f => f.id)).Nodup →
      (∀ f, f ∈ tracked ++ heap → f ∈ features) →
      (∀ f, f ∈ tracked ++ heap → deg f.id ≤ 0) →
      ((tracked ++ (deps.foldl (relaxDependent features) (heap, deg)).1).map
        (fun f => f.id)).Nodup ∧
      (∀ f, f ∈ tracked ++ (deps.foldl (relaxDependent features) (heap, deg)).1 →
        f ∈ features) ∧
      (∀ f, f ∈ tracked ++ (deps.foldl (relaxDependent features) (heap, deg)).1 →
        (deps.foldl (relaxDependent features) (heap, deg)).2 f.id ≤ 0) := by
  induction deps with
  | nil => intro tracked heap deg h1 h2 h3; exact ⟨h1, h2, h3⟩
  | cons d ds ih =>
    intro tracked heap deg h1 h2 h3
    rw [List.foldl_cons, relaxDependent_eq]
    by_cases hz : deg d - 1 = 0
    · rw [if_pos hz]
      cases hg : findFeature features d with
      | none =>
        apply ih
        · exact h1
        · exact h2
        · intro f hf
          unfold updF
          by_cases hid : f.id = d
          · rw [if_pos hid]
            have := h3 f hf
            rw [hid] at this
            omega
          · rw [if_neg hid]
            exact h3 f hf
      | some g =>
        have hgid : g.id = d := findFeature_id hg
        have hgmem : g ∈ features := findFeature_mem hg
        have hdeg1 : deg d = 1 := by omega
        have hdfresh : ∀ f, f ∈ tracked ++ heap → f.id ≠ d := by
          intro f hf hefd
          have := h3 f hf
          rw [hefd, hdeg1] at this
          omega
        have hperm : (tracked ++ heapPush g heap).Perm (g :: (tracked ++ heap)) := by
          refine (List.Perm.append_left tracked (heapPush_perm g heap)).trans ?_
          exact List.perm_middle
        apply ih
        · have hnd : ((g :: (tracked ++ heap)).map (fun f => f.id)).Nodup := by
            rw [List.map_cons, List.nodup_cons]
            refine ⟨?_, h1⟩
            intro hmem
            obtain ⟨f, hf, hfid⟩ := List.mem_map.mp hmem
            exact hdfresh f hf (by rw [hfid, hgid])
          exact ((hperm.map (fun f => f.id)).nodup_iff).mpr hnd
        · intro f hf
          rcases List.mem_cons.mp ((hperm.mem_iff).mp hf) with h | h
          · subst h; exact hgmem
          · exact h2 f h
        · intro f hf
          unfold updF
          by_cases hid : f.id = d
          · rw [if_pos hid]
            omega
          · rw [if_neg hid]
            apply h3 f
            rcases List.mem_cons.mp ((hperm.mem_iff).mp hf) with h | h
            · exact absurd (h ▸ hgid) hid
            · exact h
    · rw [if_neg hz]
      apply ih
      · exact h1
      · exact h2
      · intro f hf
        unfold updF
        by_cases hid : f.id = d
        · rw [if_pos hid]
          have := h3 f hf
          rw [hid] at this
          omega
        · rw [if_neg hid]
          exact h3 f hf


theorem kahnLoop_inv (features : List Feature) (adj : Int → List Int) :
    ∀ (fuel : Nat) (heap ordered : List Feature) (deg : Int → Int),
      ((ordered ++ heap).map (fun f => f.id)).Nodup →
      (∀ f, f ∈ ordered ++ heap → f ∈ features) →
      (∀ f, f ∈ ordered ++ heap → deg f.id ≤ 0) →
      (((kahnLoop features adj fuel heap deg ordered).1 ++
        (kahnLoop features adj fuel heap deg ordered).2.1).map (fun f => f.id)).Nodup ∧
      (∀ f, f ∈ (kahnLoop features adj fuel heap deg ordered).1 ++
        (kahnLoop features adj fuel heap deg ordered).2.1 → f ∈ features) ∧
      (features.length ≤ fuel + ordered.length →
        (kahnLoop features adj fuel heap deg ordered).2.1 = []) := by
  intro fuel
  induction fuel with
  | zero =>
    intro heap ordered deg h1 h2 h3
    refine ⟨h1, h2, fun hlen => ?_⟩
    have hle : (ordered ++ heap).length ≤ features.length := by
      apply length_le_of_nodup_ids h1 h2
    rw [List.length_append] at hle
    simp only [Nat.zero_add] at hlen
    have : heap.length = 0 := by omega
    exact List.length_eq_zero.mp this
  | succ fuel ih =>
    intro heap ordered deg h1 h2 h3
    cases heap with
    | nil =>
      rw [kahnLoop]
      refine ⟨by simpa using h1, by simpa using h2, fun _ => rfl⟩
    | cons cur rest =>
      rw [kahnLoop]
      have hassoc : ∀ (x : List Feature), (ordered ++ [cur]) ++ x = ordered ++ cur :: x := by
        intro x
        simp
      obtain ⟨j1, j2, j3⟩ := relaxFold_inv features (adj cur.id) (ordered ++ [cur]) rest deg
        (by rw [hassoc]; exact h1) (by rw [hassoc]; exact h2) (by rw [hassoc]; exact h3)
      obtain ⟨k1, k2, k3⟩ := ih
        ((adj cur.id).foldl (relaxDependent features) (rest, deg)).1
        (ordered ++ [cur])
        ((adj cur.id).foldl (relaxDependent features) (rest, deg)).2
        j1 j2 j3
      refine ⟨k1, k2, fun hlen => k3 ?_⟩
      rw [List.length_append, List.length_singleton]
      omega


/-- The ordered_features output of resolve_dependencies, written out: the
Kahn loop output followed, when the sort is incomplete, by the unsorted
residue in input order. -/
theorem resolve_ordered_eq (features : List Feature) :
    (resolve_dependencies features).ordered_features =
      (kahnLoop features (buildGraph features).adjacency features.length
        (seedHeap features (buildGraph features).in_degree) (buildGraph features).in_degree []).1
      ++ (if (kahnLoop features (buildGraph features).adjacency features.length
            (seedHeap features (buildGraph features).in_degree)
            (buildGraph features).in_degree []).1.length < features.length
          then features.filter (fun f =>
            !((kahnLoop features (buildGraph features).adjacency features.length
              (seedHeap features (buildGraph features).in_degree)
              (buildGraph features).in_degree []).1.contains f))
          else []) := rfl

/-- The seeded heap satisfies the Kahn loop invariant. -/
theorem seed_inv (features : List Feature) (hnd : (features.map (fun f => f.id)).Nodup) :
    ((([] : List Feature) ++ seedHeap features (buildGraph features).in_degree).map (fun f => f.id)).Nodup ∧
    (∀ f, f ∈ ([] : List Feature) ++ seedHeap features (buildGraph features).in_degree → f ∈ features) ∧
    (∀ f, f ∈ ([] : List Feature) ++ seedHeap features (buildGraph features).in_degree →
      (buildGraph features).in_degree f.id ≤ 0) := by
  have hseed := seedHeap_perm features (buildGraph features).in_degree
  refine ⟨?_, ?_, ?_⟩
  · simp only [List.nil_append]
    apply ((hseed.map (fun f => f.id)).nodup_iff).mpr
    exact ((List.filter_sublist _).map _).nodup hnd
  · intro f hf
    simp only [List.nil_append] at hf
    exact List.mem_of_mem_filter ((hseed.mem_iff).mp hf)
  · intro f hf
    simp only [List.nil_append] at hf
    have hp := List.of_mem_filter ((hseed.mem_iff).mp hf)
    simp only [decide_eq_true_eq] at hp
    omega

/-- C1: for every snapshot with distinct ids — cyclic ones included — the
ordered_features of resolve_dependencies is a permutation of the snapshot's
id list: same length, same id set, no loss, no duplication (residual cyclic
features are appended at the end). -/
theorem c1_resolve_totality (features : List Feature)
    (hnd : (features.map (fun f => f.id)).Nodup) :
    ((resolve_dependencies features).ordered_features.map (fun f => f.id)).Perm
      (features.map (fun f => f.id)) := by
  have hndf : features.Nodup := hnd.of_map
  obtain ⟨i1, i2, i3⟩ := seed_inv features hnd
  obtain ⟨k1, k2, k3⟩ := kahnLoop_inv features (buildGraph features).adjacency features.length
    (seedHeap features (buildGraph features).in_degree) [] (buildGraph features).in_degree
    i1 i2 i3
  rw [resolve_ordered_eq]
  have hno : (((kahnLoop features (buildGraph features).adjacency features.length
      (seedHeap features (buildGraph features).in_degree)
      (buildGraph features).in_degree []).1).map (fun f => f.id)).Nodup := by
    rw [List.map_append] at k1
    exact k1.of_append_left
  have hsub : ∀ f, f ∈ (kahnLoop features (buildGraph features).adjacency features.length
      (seedHeap features (buildGraph features).in_degree)
      (buildGraph features).in_degree []).1 → f ∈ features := by
    intro f hf
    exact k2 f (List.mem_append_left _ hf)
  by_cases hlen : (kahnLoop features (buildGraph features).adjacency features.length
      (seedHeap features (buildGraph features).in_degree)
      (buildGraph features).in_degree []).1.length < features.length
  · rw [if_pos hlen]
    exact ((perm_append_filter_not_mem hndf hno.of_map hsub).map (fun f => f.id))
  · rw [if_neg hlen, List.append_nil]
    have hsp := List.subperm_of_subset hno.of_map (fun f hf => hsub f hf)
    have hperm := hsp.perm_of_length_le (by omega)
    exact hperm.map (fun f => f.id)

/-- The fuel given to the Kahn loop (the feature count) never runs out on
snapshots with distinct ids: the loop always ends with an empty heap, so
the fueled embedding coincides with the source's unbounded while loop. -/
theorem kahn_fuel_sufficient (features : List Feature)
    (hnd : (features.map (fun f => f.id)).Nodup) :
    (kahnLoop features (buildGraph features).adjacency features.length
      (seedHeap features (buildGraph features).in_degree)
      (buildGraph features).in_degree []).2.1 = [] := by
  obtain ⟨i1, i2, i3⟩ := seed_inv features hnd
  obtain ⟨k1, k2, k3⟩ := kahnLoop_inv features (buildGraph features).adjacency features.length
    (seedHeap features (buildGraph features).in_degree) [] (buildGraph features).in_degree
    i1 i2 i3
  exact k3 (by simp)

/-- Witness for c1_resolve_totality on a snapshot with a cycle reachable
from a root: the output ids are a permutation of the input ids. -/
theorem c1_resolve_totality_witness :
    ((resolve_dependencies cyc3Features).ordered_features.map (fun f => f.id)).Perm
      (cyc3Features.map (fun f => f.id)) :=
  c1_resolve_totality cyc3Features (by decide)


theorem heapLt_asymm {a b : Feature} (h : heapLt a b) : ¬ heapLt b a := by
  unfold heapLt at *
  omega

theorem heapLe_of_lt_of_le {a b c : Feature} (h1 : heapLt a b) (h2 : ¬ heapLt c b) :
    ¬ heapLt c a := by
  unfold heapLt at *
  omega

theorem heapPush_sorted {f : Feature} {h : List Feature}
    (hs : List.Pairwise (fun a b => ¬ heapLt b a) h) :
    List.Pairwise (fun a b => ¬ heapLt b a) (heapPush f h) := by
  induction h with
  | nil => simp [heapPush]
  | cons g gs ih =>
    rw [List.pairwise_cons] at hs
    rw [heapPush]
    by_cases hlt : heapLt f g
    · rw [if_pos hlt]
      rw [List.pairwise_cons]
      refine ⟨?_, List.pairwise_cons.mpr hs⟩
      intro x hx
      rcases List.mem_cons.mp hx with rfl | hx
      · exact heapLt_asymm hlt
      · exact heapLe_of_lt_of_le hlt (hs.1 x hx)
    · rw [if_neg hlt]
      rw [List.pairwise_cons]
      refine ⟨?_, ih hs.2⟩
      intro x hx
      rcases mem_heapPush.mp hx with rfl | hx
      · exact hlt
      · exact hs.1 x hx

theorem seedHeap_sorted (features : List Feature) (deg : Int → Int) :
    List.Pairwise (fun a b => ¬ heapLt b a) (seedHeap features deg) := by
  unfold seedHeap
  have key : ∀ (l : List Feature) (acc : List Feature),
      List.Pairwise (fun a b => ¬ heapLt b a) acc →
      List.Pairwise (fun a b => ¬ heapLt b a)
        (l.foldl (fun h f => if deg f.id = 0 then heapPush f h else h) acc) := by
    intro l
    induction l with
    | nil => intro acc hacc; exact hacc
    | cons f fs ih =>
      intro acc hacc
      rw [List.foldl_cons]
      by_cases hz : deg f.id = 0
      · rw [if_pos hz]
        exact ih _ (heapPush_sorted hacc)
      · rw [if_neg hz]
        exact ih _ hacc
  exact key features [] (by simp)

theorem buildGraph_no_deps {features : List Feature}
    (hdeps : ∀ f ∈ features, f.dependencies = []) :
    buildGraph features = initBuild := by
  unfold buildGraph
  have key : ∀ (l : List Feature), (∀ f ∈ l, f.dependencies = []) →
      ∀ st, l.foldl (buildFeature features) st = st := by
    intro l
    induction l with
    | nil => intro _ st; rfl
    | cons f fs ih =>
      intro hl st
      rw [List.foldl_cons]
      have h1 : buildFeature features st f = st := by
        unfold buildFeature
        rw [hl f (List.mem_cons_self _ _)]
        rfl
      rw [h1]
      exact ih (fun g hg => hl g (List.mem_cons_of_mem _ hg)) st
  exact key features hdeps initBuild

theorem kahnLoop_no_adj (features : List Feature) :
    ∀ (fuel : Nat) (heap : List Feature) (deg : Int → Int) (ordered : List Feature),
      heap.length ≤ fuel →
      (kahnLoop features (fun _ => []) fuel heap deg ordered).1 = ordered ++ heap := by
  intro fuel
  induction fuel with
  | zero =>
    intro heap deg ordered hlen
    have : heap = [] := List.length_eq_zero.mp (by omega)
    subst this
    simp [kahnLoop]
  | succ fuel ih =>
    intro heap deg ordered hlen
    cases heap with
    | nil => simp [kahnLoop]
    | cons cur rest =>
      rw [kahnLoop]
      simp only [List.foldl_nil]
      rw [ih rest deg (ordered ++ [cur]) (by simp at hlen; omega)]
      simp


/-- C3: resolve_dependencies pops by (priority ascending, id ascending);
where no dependency constrains the order — every feature dependency-free —
the output is sorted ascending by priority (strictly, under distinct
priorities), and on the specification's example (priorities 10, 5, 1, no
edges) the output order is exactly [3, 2, 1]. -/
theorem c3_priority_order :
    (∀ features : List Feature,
      (features.map (fun f => f.id)).Nodup →
      (∀ f ∈ features, f.dependencies = []) →
      features.Pairwise (fun a b => a.priority ≠ b.priority) →
      (resolve_dependencies features).ordered_features.Pairwise
        (fun a b => a.priority < b.priority)) ∧
    (resolve_dependencies exC3).ordered_features.map (fun f => f.id) = [3, 2, 1] := by
  constructor
  · intro features hnd hdeps hpr
    have hbg := buildGraph_no_deps hdeps
    have hadj : (buildGraph features).adjacency = fun _ => [] := by rw [hbg]; rfl
    have hdeg : (buildGraph features).in_degree = fun _ => 0 := by rw [hbg]; rfl
    have hperm0 : (seedHeap features (buildGraph features).in_degree).Perm features := by
      refine (seedHeap_perm features _).trans ?_
      rw [hdeg]
      simp
    have hlen0 : (seedHeap features (buildGraph features).in_degree).length = features.length :=
      hperm0.length_eq
    have hkahn : (kahnLoop features (buildGraph features).adjacency features.length
        (seedHeap features (buildGraph features).in_degree)
        (buildGraph features).in_degree []).1
        = seedHeap features (buildGraph features).in_degree := by
      rw [hadj]
      rw [kahnLoop_no_adj features features.length _ _ [] (by omega)]
      simp
    have hord : (resolve_dependencies features).ordered_features
        = seedHeap features (buildGraph features).in_degree := by
      rw [resolve_ordered_eq, hkahn, hlen0]
      rw [if_neg (by omega)]
      simp
    rw [hord]
    have hs := seedHeap_sorted features (buildGraph features).in_degree
    have hne : (seedHeap features (buildGraph features).in_degree).Pairwise
        (fun a b => a.priority ≠ b.priority) := by
      refine (List.Perm.pairwise_iff ?_ hperm0).mpr hpr
      intro a b hab
      exact fun h => hab h.symm
    apply (hs.and hne).imp
    intro a b hab
    unfold heapLt at hab
    omega
  · decide

/-- Witness for c3_priority_order at the specification's example. -/
theorem c3_priority_order_witness :
    (resolve_dependencies exC3).ordered_features.Pairwise
      (fun a b => a.priority < b.priority) :=
  c3_priority_order.1 exC3 (by decide) (by decide) (by decide)


theorem canReach_fold_true (fm : List Feature) (sid : Int) (fuel : Nat) :
    ∀ (ds : List Int) (W : List Int),
      ds.foldl (fun acc d => if acc.1 then acc else can_reach fm sid fuel d acc.2) (true, W)
        = (true, W) := by
  intro ds
  induction ds with
  | nil => intro W; rfl
  | cons d rest ih => intro W; rw [List.foldl_cons]; exact ih W

theorem canReach_fold_inv (fm : List Feature) (sid : Int) (fuel : Nat)
    (IH : ∀ (u : Int) (V V' : List Int), sid ∉ V →
      can_reach fm sid fuel u V = (false, V') →
      V ⊆ V' ∧ u ∈ V' ∧ sid ∉ V' ∧
      (∀ v ∈ V', v ∉ V → ∀ g, findFeature fm v = some g →
        ∀ d ∈ g.dependencies, d ∈ V')) :
    ∀ (deps : List Int) (V V' : List Int), sid ∉ V →
      deps.foldl (fun acc d => if acc.1 then acc else can_reach fm sid fuel d acc.2)
        (false, V) = (false, V') →
      V ⊆ V' ∧ sid ∉ V' ∧ (∀ d ∈ deps, d ∈ V') ∧
      (∀ v ∈ V', v ∉ V → ∀ g, findFeature fm v = some g →
        ∀ d ∈ g.dependencies, d ∈ V') := by
  intro deps
  induction deps with
  | nil =>
    intro V V' hs h
    simp only [List.foldl_nil, Prod.mk.injEq] at h
    obtain ⟨-, rfl⟩ := h
    exact ⟨fun x hx => hx, hs, by simp, fun v hv hnv => absurd hv hnv⟩
  | cons d ds ihd =>
    intro V V' hs h
    rw [List.foldl_cons] at h
    simp only [Bool.false_eq_true, if_false] at h
    cases hcr : can_reach fm sid fuel d V with
    | mk b V1 =>
      rw [hcr] at h
      cases b with
      | true =>
        rw [canReach_fold_true] at h
        simp at h
      | false =>
        obtain ⟨s1, s2, s3, s4⟩ := IH d V V1 hs hcr
        obtain ⟨t1, t2, t3, t4⟩ := ihd V1 V' s3 h
        refine ⟨fun x hx => t1 (s1 hx), t2, ?_, ?_⟩
        · intro x hx
          rcases List.mem_cons.mp hx with rfl | hx
          · exact t1 s2
          · exact t3 x hx
        · intro v hv hnv g hg d2 hd2
          by_cases hv1 : v ∈ V1
          · exact t1 (s4 v hv1 hnv g hg d2 hd2)
          · exact t4 v hv hv1 g hg d2 hd2

/-- Closure invariant of the can_reach DFS on a false return: the visited
set only grows, the start is visited, the source is never visited, and
every newly visited feature has all its dependencies visited. -/
theorem can_reach_false_inv (fm : List Feature) (sid : Int) :
    ∀ (fuel : Nat) (u : Int) (V V' : List Int), sid ∉ V →
      can_reach fm sid fuel u V = (false, V') →
      V ⊆ V' ∧ u ∈ V' ∧ sid ∉ V' ∧
      (∀ v ∈ V', v ∉ V → ∀ g, findFeature fm v = some g →
        ∀ d ∈ g.dependencies, d ∈ V') := by
  intro fuel
  induction fuel with
  | zero =>
    intro u V V' hs h
    rw [can_reach] at h
    simp at h
  | succ fuel ih =>
    intro u V V' hs h
    rw [can_reach] at h
    by_cases h1 : u = sid
    · rw [if_pos h1] at h
      simp at h
    · rw [if_neg h1] at h
      by_cases h2 : u ∈ V
      · rw [if_pos h2] at h
        simp only [Prod.mk.injEq] at h
        obtain ⟨-, rfl⟩ := h
        exact ⟨fun x hx => hx, h2, hs, fun v hv hnv => absurd hv hnv⟩
      · rw [if_neg h2] at h
        cases h3 : findFeature fm u with
        | none =>
          rw [h3] at h
          simp only [Prod.mk.injEq] at h
          obtain ⟨-, rfl⟩ := h
          refine ⟨fun x hx => List.mem_cons_of_mem _ hx, List.mem_cons_self _ _, ?_, ?_⟩
          · intro hc
            rcases List.mem_cons.mp hc with rfl | hc
            · exact h1 rfl
            · exact hs hc
          · intro v hv hnv g hg d2 hd2
            rcases List.mem_cons.mp hv with rfl | hv
            · rw [h3] at hg
              exact absurd hg (by simp)
            · exact absurd hv hnv
        | some cur =>
          rw [h3] at h
          have hs1 : sid ∉ u :: V := by
            intro hc
            rcases List.mem_cons.mp hc with rfl | hc
            · exact h1 rfl
            · exact hs hc
          obtain ⟨t1, t2, t3, t4⟩ := canReach_fold_inv fm sid fuel ih
            cur.dependencies (u :: V) V' hs1 h
          have humem : u ∈ V' := t1 (List.mem_cons_self _ _)
          refine ⟨fun x hx => t1 (List.mem_cons_of_mem _ hx), humem, t2, ?_⟩
          intro v hv hnv g hg d2 hd2
          by_cases hvu : v = u
          · subst hvu
            rw [h3] at hg
            obtain rfl := Option.some_injective _ hg
            exact t3 d2 hd2
          · refine t4 v hv ?_ g hg d2 hd2
            intro hc
            rcases List.mem_cons.mp hc with hcc | hcc
            · exact hvu hcc
            · exact hnv hcc


/-- A false answer of the bounded DFS is sound: the final visited set is
closed under dependency steps, contains the start, and excludes the source,
so no dependency path from the start reaches the source. -/
theorem can_reach_false_not_reach (fm : List Feature) (sid tid : Int) (V' : List Int)
    (h : can_reach fm sid (MAX_DEPENDENCY_DEPTH + 1) tid [] = (false, V')) :
    ¬ specReaches fm tid sid := by
  obtain ⟨-, hu, hns, hcl⟩ :=
    can_reach_false_inv fm sid (MAX_DEPENDENCY_DEPTH + 1) tid [] V' (by simp) h
  intro hreach
  have key : ∀ x y, Relation.ReflTransGen (DependsStep fm) x y → x ∈ V' → y ∈ V' := by
    intro x y hxy
    induction hxy with
    | refl => exact id
    | tail hab hstep ihh =>
      intro hx
      obtain ⟨g, hg, hmem⟩ := hstep
      exact hcl _ (ihh hx) (by simp) g hg _ hmem
  exact hns (key tid sid hreach hu)

/-- C4 (amended): would_create_circular_dependency returns true whenever
source equals target (any snapshot); whenever it returns false and the
source id is present, the target cannot reach the source through existing
dependency edges (so a true answer is the only possibility when
reachability holds); the reverse direction fails only through the depth-cap
fail-safe (see the counterexample).  The specification's concrete examples
hold: with the existing edge 1 depends on 2 the call (2, 1) is true, and
(3, 1) with 3 absent is false. -/
theorem c4_would_create_cycle :
    (∀ (features : List Feature) (sid : Int),
      would_create_circular_dependency features sid sid = true) ∧
    (∀ (features : List Feature) (sid tid : Int) (fsrc : Feature),
      findFeature features sid = some fsrc →
      would_create_circular_dependency features sid tid = false →
      ¬ specReaches features tid sid) ∧
    would_create_circular_dependency exC4 2 1 = true ∧
    would_create_circular_dependency exC4 3 1 = false := by
  refine ⟨?_, ?_, by decide, by decide⟩
  · intro features sid
    unfold would_create_circular_dependency
    rw [if_pos rfl]
  · intro features sid tid fsrc hfs h
    unfold would_create_circular_dependency at h
    by_cases hst : sid = tid
    · rw [if_pos hst] at h
      simp at h
    · rw [if_neg hst] at h
      rw [hfs] at h
      cases hft : findFeature features tid with
      | none =>
        intro hreach
        rcases Relation.ReflTransGen.cases_head hreach with heq | ⟨c, hstep, _⟩
        · exact hst heq.symm
        · obtain ⟨g, hg, _⟩ := hstep
          rw [hft] at hg
          exact absurd hg (by simp)
      | some ftgt =>
        rw [hft] at h
        cases hcr : can_reach features sid (MAX_DEPENDENCY_DEPTH + 1) tid [] with
        | mk b V' =>
          cases b with
          | true => rw [hcr] at h; simp at h
          | false => exact can_reach_false_not_reach features sid tid V' hcr


/-- One dependency step inside chainPlus stays within the chain ids 1..52
(the isolated feature 100 has no incoming edges). -/
theorem chainPlus_step_bound {a b : Int} (h : DependsStep chainPlus a b)
    (ha : 1 ≤ a ∧ a ≤ 52) : 1 ≤ b ∧ b ≤ 52 := by
  obtain ⟨f, hf, hb⟩ := h
  have hmem : f ∈ chainPlus := findFeature_mem hf
  have hid : f.id = a := findFeature_id hf
  unfold chainPlus at hmem
  rcases List.mem_append.mp hmem with hm | hm
  · unfold chainFeatures at hm
    obtain ⟨i, hi, rfl⟩ := List.mem_map.mp hm
    rw [List.mem_range] at hi
    simp only at hid hb
    by_cases h52 : i + 1 = 52
    · rw [if_pos h52] at hb
      simp at hb
    · rw [if_neg h52] at hb
      simp at hb
      subst hb
      omega
  · simp only [List.mem_singleton] at hm
    subst hm
    simp only at hid
    omega

/-- C4 counterexample: on the 52-deep chain plus the isolated feature 100
(both endpoints present), the pre-validation answers true although feature
1 cannot reach feature 100 at all — the depth cap, not reachability,
produced the answer, so the claimed exactly-when fails. -/
theorem c4_counterexample :
    would_create_circular_dependency chainPlus 100 1 = true ∧
    ¬ specReaches chainPlus 1 100 ∧
    (findFeature chainPlus 100).isSome = true ∧
    (findFeature chainPlus 1).isSome = true := by
  refine ⟨by decide, ?_, by decide, by decide⟩
  intro h
  have key : ∀ x y, Relation.ReflTransGen (DependsStep chainPlus) x y →
      (1 ≤ x ∧ x ≤ 52) → (1 ≤ y ∧ y ≤ 52) := by
    intro x y hxy
    induction hxy with
    | refl => exact id
    | tail hab hstep ihh => intro hx; exact chainPlus_step_bound hstep (ihh hx)
  have hbad := key 1 100 h (by norm_num)
  omega

/-- Witness for c4_would_create_cycle: a false answer on the example
snapshot proves feature 2 cannot reach feature 1. -/
theorem c4_would_create_cycle_witness : ¬ specReaches exC4 2 1 :=
  c4_would_create_cycle.2.1 exC4 1 2
    { id := 1, priority := 1, dependencies := [2], passes := false, in_progress := false }
    (by decide) (by decide)
